import Mathlib

/-!
# Verification of the Miyabi coordinator's scheduling core

Shallow embedding of `CoordinatorAgent` (src/unnamed/part_003, `agents/coordinator`):
`buildDAG`, `identifyCriticalPath`, `assignAgents` / `determineAgentType` /
`getPriorityValue`, and `executeParallel`, together with theorems settling the
frozen claims about them.

Modelling conventions:
* JS `number` durations (`estimatedHours`) and PERT quantities are modelled as `ℚ`.
* JS `Map` iteration order is insertion order; maps are modelled as association
  lists preserving that order.
* Fallible code (`throw`) is modelled with `Except`; the non-null assertion
  `nodes.get(x)!` hitting `undefined` (a runtime `TypeError`) is the
  `typeError` error case.
* Unbounded loops/recursion are given explicit fuel; fuel exhaustion is a
  distinguished error that is proved unreachable (or is irrelevant) in every
  theorem below.
-/

deriving instance DecidableEq for Except

namespace Coordinator

/-- Modelled from the spec: the `Priority` enum of `base-agent.ts` (that file is
absent from the sources; only its member names `P0_CRITICAL`, `P1_HIGH`,
`P2_MEDIUM`, `P3_LOW` are visible in the coordinator, and the spec adds that any
other value is "unrecognized"). The `other` constructor models an out-of-enum
string cast into the type (the coordinator casts raw strings with
`data.priority as Priority`). -/
inductive Priority where
  | p0Critical
  | p1High
  | p2Medium
  | p3Low
  | other (s : String)
deriving DecidableEq, Repr

/-- The `Task` fields read by the coordinator's scheduling functions
(`base-agent.ts` is absent from the sources; the field set and types follow the
coordinator's uses and the spec's data model). Fields the scheduling core never
reads (title, description, status, complexity, actualHours, metadata) are
omitted. `estimatedHours` is a JS number, modelled as `ℚ`. -/
structure Task where
  id : String
  priority : Priority := .p3Low
  assignedAgent : Option String := none
  dependencies : List String := []
  estimatedHours : ℚ := 0
  labels : List String := []
deriving DecidableEq, Repr

/-- DAG node (`DAGNode` interface): wraps the task, copies its dependency ids,
accumulates reverse edges and a level. The TS `level: number` is always set to
`maxDepLevel + 1` with `maxDepLevel ≥ -1`, so it is modelled as `Int`. -/
structure DAGNode where
  task : Task
  dependencies : List String
  dependents : List String
  level : Int
deriving DecidableEq, Repr

/-- The `DAG` interface: insertion-ordered node map, level buckets, critical path. -/
structure DAG where
  nodes : List (String × DAGNode)
  levels : List (List DAGNode)
  criticalPath : List String
deriving DecidableEq, Repr

/-- `Map.get`: first binding of the key in insertion-ordered association list. -/
def lookupNode (m : List (String × DAGNode)) (k : String) : Option DAGNode :=
  (m.find? (fun p => p.1 == k)).map (·.2)

/-- `Map.set`: overwrite in place if the key exists (keys are never duplicated,
since maps are only ever built through `setNode` from `[]`), else append. -/
def setNode : List (String × DAGNode) → String → DAGNode → List (String × DAGNode)
  | [], k, v => [(k, v)]
  | p :: ps, k, v => if p.1 == k then (k, v) :: ps else p :: setNode ps k v

/-- Errors `buildDAG` can raise: the explicit
`Circular dependency detected at <id>` throw, the implicit `TypeError` from
dereferencing `nodes.get(id)!` when the id is absent, and (model-only) fuel
exhaustion. -/
inductive BuildError where
  | circular (id : String)
  | typeError
  | fuelOut
deriving DecidableEq, Repr

/-- Mutable state of `buildDAG`'s level computation. -/
structure BuildSt where
  nodes : List (String × DAGNode)
  visited : List String
  inProg : List String
  levels : List (List DAGNode)
deriving DecidableEq, Repr

/-- `levels[i].push(n)` after `if (!levels[i]) levels[i] = []`: pad the bucket
list with empty buckets up to index `i`, then append `n` to bucket `i`. -/
def pushLevel (ls : List (List DAGNode)) (i : Nat) (n : DAGNode) :
    List (List DAGNode) :=
  let padded := ls ++ List.replicate (i + 1 - ls.length) []
  padded.set i (padded.getD i [] ++ [n])

mutual

/-- The memoized depth-first `visit` of `buildDAG` (levels / topological sort).
Fuel decreases on each nesting level; the stack-depth bound proved later shows
the fuel used by `buildDAG` never runs out on the inputs of the claims. -/
def visit : Nat → BuildSt → String → Except BuildError (Int × BuildSt)
  | 0, _, _ => .error .fuelOut
  | fuel + 1, st, nodeId =>
    if st.visited.contains nodeId then
      match lookupNode st.nodes nodeId with
      | some node => .ok (node.level, st)
      | none => .error .typeError
    else if st.inProg.contains nodeId then
      .error (.circular nodeId)
    else
      let st1 : BuildSt := { st with inProg := nodeId :: st.inProg }
      match lookupNode st1.nodes nodeId with
      | none => .error .typeError
      | some node =>
        match visitDeps fuel st1 node.dependencies (-1) with
        | .error e => .error e
        | .ok (maxDepLevel, st2) =>
          let newNode : DAGNode := { node with level := maxDepLevel + 1 }
          let st3 : BuildSt :=
            { nodes := setNode st2.nodes nodeId newNode
              visited := st2.visited ++ [nodeId]
              inProg := st2.inProg.eraseP (· == nodeId)
              levels := pushLevel st2.levels (maxDepLevel + 1).toNat newNode }
          .ok (maxDepLevel + 1, st3)
termination_by fuel _ _ => (fuel, 0)

/-- Fold of `visit` over a dependency list accumulating `Math.max`
(`maxDepLevel` starts at `-1` in `visit`). -/
def visitDeps : Nat → BuildSt → List String → Int → Except BuildError (Int × BuildSt)
  | _, st, [], m => .ok (m, st)
  | fuel, st, d :: ds, m =>
    match visit fuel st d with
    | .error e => .error e
    | .ok (l, st1) => visitDeps fuel st1 ds (max m l)
termination_by fuel _ ds _ => (fuel, ds.length + 1)

end

/-- First pass of `buildDAG`: create one node per task (`nodes.set(task.id, …)`,
dependencies copied from the task, level initialised to 0). -/
def mkNodes (tasks : List Task) : List (String × DAGNode) :=
  tasks.foldl
    (fun m t => setNode m t.id ⟨t, t.dependencies, [], 0⟩)
    []

/-- Second pass of `buildDAG`: for each node and each of its dependency ids,
append the node's own id to the dependency's `dependents` — silently skipping
dependency ids that are absent from the map (`if (depNode)`). -/
def addEdges (m : List (String × DAGNode)) : List (String × DAGNode) :=
  (m.map (fun p => (p.1, p.2.dependencies))).foldl
    (fun acc idDeps =>
      idDeps.2.foldl
        (fun acc2 depId =>
          match lookupNode acc2 depId with
          | some depNode =>
            setNode acc2 depId { depNode with dependents := depNode.dependents ++ [idDeps.1] }
          | none => acc2)
        acc)
    m

/-- Third pass of `buildDAG`: visit every node id in insertion order,
threading the level-computation state. -/
def visitAll (fuel : Nat) (st : BuildSt) : List String → Except BuildError BuildSt
  | [] => .ok st
  | id :: ids =>
    match visit fuel st id with
    | .error e => .error e
    | .ok (_, st1) => visitAll fuel st1 ids

/-- `CoordinatorAgent.buildDAG`. The fuel `tasks.length + 2` strictly exceeds the
DFS stack depth, which is bounded by the number of distinct node ids. -/
def buildDAG (tasks : List Task) : Except BuildError DAG :=
  let nodes0 := addEdges (mkNodes tasks)
  match visitAll (tasks.length + 2)
      ⟨nodes0, [], [], []⟩ (nodes0.map (·.1)) with
  | .error e => .error e
  | .ok st => .ok ⟨st.nodes, st.levels, []⟩

/-! ## Critical path analyzer (`identifyCriticalPath`) -/

/-- Lookup in a `Map<string, ℚ>` with JS `?? 0` defaulting. -/
def lookupQ (m : List (String × ℚ)) (k : String) : ℚ :=
  ((m.find? (fun p => p.1 == k)).map (·.2)).getD 0

/-- The `duration` map: `duration.set(nodeId, node.task.estimatedHours)` over
the node map in insertion order. -/
def durTable (dag : DAG) : List (String × ℚ) :=
  dag.nodes.map (fun p => (p.1, p.2.task.estimatedHours))

/-- Forward pass of `identifyCriticalPath`: for each node **in map insertion
order** (not in dependency order), `earliestStart(n) = maxPredEnd` where
`maxPredEnd` folds `Math.max` of `(earliestStart.get(d) ?? 0) + (duration.get(d) ?? 0)`
over the dependencies, starting from `0`. -/
def esTable (dag : DAG) : List (String × ℚ) :=
  dag.nodes.foldl
    (fun acc p =>
      let maxPredEnd := p.2.dependencies.foldl
        (fun m depId => max m (lookupQ acc depId + lookupQ (durTable dag) depId)) 0
      acc ++ [(p.1, maxPredEnd)])
    []

/-- `earliestStart.get(id) ?? 0` against the completed forward pass. -/
def esOf (dag : DAG) (id : String) : ℚ := lookupQ (esTable dag) id

/-- `(duration.get(id) ?? 0)`. -/
def durOf (dag : DAG) (id : String) : ℚ := lookupQ (durTable dag) id

/-- Endpoint search: node with maximum earliest finish, starting from
`endpoint = null`, `maxFinish = 0`, strict `>` (ties and all-zero finishes keep
the current value). Returns the endpoint (if any) and `maxFinish`. -/
def findEndpoint (dag : DAG) : Option String × ℚ :=
  dag.nodes.foldl
    (fun acc p =>
      let finish := esOf dag p.1 + durOf dag p.1
      if acc.2 < finish then (some p.1, finish) else acc)
    (none, 0)

/-- One backtracking step: fold over the current node's dependencies with
`maxPredFinish = -1` and strict `>`, keeping the first maximizer. -/
def criticalPred (dag : DAG) (node : DAGNode) : Option String :=
  (node.dependencies.foldl
    (fun acc depId =>
      let predFinish := esOf dag depId + durOf dag depId
      if acc.2 < predFinish then (some depId, predFinish) else acc)
    ((none : Option String), (-1 : ℚ))).1

/-- Errors `identifyCriticalPath` can raise: the `TypeError` from
`nodes.get(current)!` being `undefined` during backtracking, and (model-only)
fuel exhaustion standing for a non-terminating backtrack on a malformed DAG. -/
inductive CPError where
  | typeError
  | fuelOut
deriving DecidableEq, Repr

/-- The `while (current)` backtracking loop, building the path by `unshift`. -/
def backtrack (dag : DAG) : Nat → String → List String → Except CPError (List String)
  | 0, _, _ => .error .fuelOut
  | fuel + 1, current, acc =>
    let acc1 := current :: acc
    match lookupNode dag.nodes current with
    | none => .error .typeError
    | some node =>
      match criticalPred dag node with
      | some p => backtrack dag fuel p acc1
      | none => .ok acc1

/-- `CoordinatorAgent.identifyCriticalPath`: forward pass, endpoint search,
backtrack. An empty node map (or all earliest finishes ≤ 0) leaves the endpoint
`null` and returns `[]`. The result is also stored on the DAG in the source;
only the returned path matters to the claims. -/
def identifyCriticalPath (dag : DAG) : Except CPError (List String) :=
  match findEndpoint dag with
  | (none, _) => .ok []
  | (some endpoint, _) => backtrack dag (dag.nodes.length + 1) endpoint []

/-! ## Agent/role assigner (`assignAgents`) -/

/-- JS `String.prototype.includes` on char lists: `startsWithCL pat s` is
"`s` starts with `pat`". -/
def startsWithCL : List Char → List Char → Bool
  | [], _ => true
  | _ :: _, [] => false
  | p :: ps, c :: cs => p == c && startsWithCL ps cs

/-- `containsCL pat s`: some suffix of `s` starts with `pat`. -/
def containsCL (pat : List Char) : List Char → Bool
  | [] => startsWithCL pat []
  | c :: cs => startsWithCL pat (c :: cs) || containsCL pat cs

/-- JS `s.includes(pat)`. -/
def jsIncludes (s pat : String) : Bool := containsCL pat.toList s.toList

/-- JS `s.toLowerCase()`, character by character (the labels and patterns of
the claims are ASCII). -/
def jsToLower (s : String) : String := ⟨s.data.map Char.toLower⟩

/-- `CoordinatorAgent.determineAgentType`: explicit `assignedAgent` if truthy
(JS: the empty string is falsy), else the first case-insensitive label-substring
match in the fixed order test, deploy, review, pr/pull, issue, else `codegen`. -/
def determineAgentType (t : Task) : String :=
  if (t.assignedAgent.getD "") != "" then t.assignedAgent.getD ""
  else
    let labels := t.labels.map jsToLower
    if labels.any (fun l => jsIncludes l "test") then "test"
    else if labels.any (fun l => jsIncludes l "deploy") then "deploy"
    else if labels.any (fun l => jsIncludes l "review") then "review"
    else if labels.any (fun l => jsIncludes l "pr" || jsIncludes l "pull") then "pr"
    else if labels.any (fun l => jsIncludes l "issue") then "issue"
    else "codegen"

/-- `CoordinatorAgent.getPriorityValue`: numeric priority weight. -/
def getPriorityValue : Priority → Nat
  | .p0Critical => 4
  | .p1High => 3
  | .p2Medium => 2
  | .p3Low => 1
  | .other _ => 0

/-- The `AgentAssignment` interface. -/
structure AgentAssignment where
  taskId : String
  agentType : String
  priority : Nat
deriving DecidableEq, Repr

/-- Stable insertion of an assignment into a descending-by-priority list:
skip every element of priority strictly greater, insert before the first of
priority ≤ (so earlier elements of equal priority stay in front only when they
were inserted earlier from the left of the original list). -/
def insertDesc (a : AgentAssignment) : List AgentAssignment → List AgentAssignment
  | [] => [a]
  | b :: bs => if b.priority ≤ a.priority then a :: b :: bs else b :: insertDesc a bs

/-- `assignments.sort((a, b) => b.priority - a.priority)`: JS `Array.sort` is
stable (ES2019), and a stable sort by a total preorder is unique, so this
stable insertion sort is the faithful model of the call. -/
def sortByPriorityDesc : List AgentAssignment → List AgentAssignment
  | [] => []
  | a :: as => insertDesc a (sortByPriorityDesc as)

/-- The per-task assignment record built in `assignAgents`'s loop. -/
def mkAssignment (t : Task) : AgentAssignment :=
  ⟨t.id, determineAgentType t, getPriorityValue t.priority⟩

/-- `CoordinatorAgent.assignAgents`: map each task to an assignment, then sort
descending by numeric priority. -/
def assignAgents (tasks : List Task) : List AgentAssignment :=
  sortByPriorityDesc (tasks.map mkAssignment)

/-! ## Bounded concurrent executor (`executeParallel`)

The control loop keeps a pending `queue`, an `inProgress` set and a `completed`
set, and pushes `AgentResult`s as tasks finish.  The concurrency of the source
(promises resolving during the 100 ms poll sleep) is modelled by a *schedule*:
a function choosing, each round, which in-flight task ids finish during that
round's sleep.  Quantifying theorems over all schedules covers all interleavings
of executor completions; the executor collaborators themselves are modelled by
an *outcome* oracle (resolve with a success flag, or reject). -/

/-- The fields of the `AgentResult` interface that the scheduling layer itself
produces or that the claims mention (output payload, metrics and logs are
opaque to the scheduler and omitted). -/
structure AgentResult where
  success : Bool
  taskId : String
  agentName : String
  error : Option String := none
deriving DecidableEq, Repr

/-- Behaviour of `agent.execute(task)` for one task: resolve with a result
whose success flag is `success`, or reject (throw). -/
inductive Outcome where
  | resolved (success : Bool)
  | thrown (msg : String)
deriving DecidableEq, Repr

/-- The executor environment: which role strings have a registered agent in the
`agents` map, what each task's execution does, and the completion schedule. -/
structure ExecEnv where
  registered : List String
  outcome : String → Outcome
  sched : List String → List String

/-- Errors thrown out of `executeParallel`: the deadlock throw
(`Circular dependency or blocked tasks detected`) and (model-only) fuel
exhaustion standing for a run whose schedule never lets in-flight work finish. -/
inductive ExecErr where
  | deadlock
  | fuelOut
deriving DecidableEq, Repr

/-- The three bookkeeping sets plus the result list. `inflight` keeps the task
records (the source keeps ids; ids are unique in every claim's scope). -/
structure ExecState where
  queue : List Task
  inflight : List Task
  completed : List String
  results : List AgentResult
deriving DecidableEq, Repr

/-- `task.assignedAgent ?? 'codegen'`. -/
def roleOf (t : Task) : String := t.assignedAgent.getD "codegen"

/-- `task.assignedAgent ?? 'unknown'` (used for the synthetic failure result). -/
def failAgentName (t : Task) : String := t.assignedAgent.getD "unknown"

/-- `queue.filter(task => task.dependencies.every(depId => completed.has(depId)))`. -/
def readyTasks (st : ExecState) : List Task :=
  st.queue.filter (fun t => t.dependencies.all (fun d => st.completed.contains d))

/-- JS `arr.slice(0, e)` with a possibly negative `e`. -/
def jsSliceTo (e : Int) (l : List α) : List α :=
  if e < 0 then l.take (l.length - e.natAbs) else l.take e.toNat

/-- Dispatch of one ready task (`executeTask` up to its first suspension):
remove it from the queue (`indexOf`/`splice`); if its role has no registered
agent the async function rejects at once and the `.catch` records a synthetic
failed result (the task never enters `inProgress` or `completed`); otherwise it
enters `inProgress`. -/
def dispatchOne (env : ExecEnv) (st : ExecState) (t : Task) : ExecState :=
  let q := st.queue.eraseP (fun u => u.id == t.id)
  if env.registered.contains (roleOf t) then
    { st with queue := q, inflight := st.inflight ++ [t] }
  else
    { st with
      queue := q
      results := st.results ++
        [{ success := false, taskId := t.id, agentName := failAgentName t,
           error := some ("Agent not found: " ++ roleOf t) }] }

/-- Completion of one in-flight task (`executeTask` after `await`): on resolve,
`completed.add`, leave `inProgress` and push the executor's result; on reject,
leave `inProgress`, stay out of `completed`, and the `.catch` pushes a
synthetic failed result. -/
def completeOne (env : ExecEnv) (st : ExecState) (t : Task) : ExecState :=
  let infl := st.inflight.eraseP (fun u => u.id == t.id)
  match env.outcome t.id with
  | .resolved b =>
    { st with
      inflight := infl
      completed := st.completed ++ [t.id]
      results := st.results ++
        [{ success := b, taskId := t.id, agentName := roleOf t, error := none }] }
  | .thrown m =>
    { st with
      inflight := infl
      results := st.results ++
        [{ success := false, taskId := t.id, agentName := failAgentName t,
           error := some m }] }

/-- One iteration of the `while (queue.length > 0 || inProgress.size > 0)` loop:
compute the ready set, slice off up to `maxConcurrency - inProgress.size`, fail
with the deadlock error if nothing is ready and nothing is in flight while the
queue is non-empty, otherwise dispatch the slice and then let the scheduled
in-flight tasks finish during the poll sleep. -/
def stepRound (env : ExecEnv) (mc : Int) (st : ExecState) : Except ExecErr ExecState :=
  let toExec := jsSliceTo (mc - st.inflight.length) (readyTasks st)
  if toExec.isEmpty && st.inflight.isEmpty then
    if st.queue.isEmpty then .ok st else .error .deadlock
  else
    let st1 := toExec.foldl (dispatchOne env) st
    let ids := st1.inflight.map (·.id)
    let fin := st1.inflight.filter (fun t => (env.sched ids).contains t.id)
    .ok (fin.foldl (completeOne env) st1)

/-- The loop with its top-of-iteration exit condition, fuelled. -/
def runLoop (env : ExecEnv) (mc : Int) : Nat → ExecState → Except ExecErr (List AgentResult)
  | 0, _ => .error .fuelOut
  | fuel + 1, st =>
    if st.queue.isEmpty && st.inflight.isEmpty then .ok st.results
    else
      match stepRound env mc st with
      | .ok st1 => runLoop env mc fuel st1
      | .error e => .error e

/-- The initial bookkeeping state of a run. -/
def initState (tasks : List Task) : ExecState := ⟨tasks, [], [], []⟩

/-- `CoordinatorAgent.executeParallel`. The fuel `2 * tasks.length + 1` is
enough for every schedule that lets at least one in-flight task finish per
round (proved below); a stalling schedule yields `fuelOut`, the model's image
of the source polling forever. -/
def executeParallel (env : ExecEnv) (tasks : List Task) (mc : Int) :
    Except ExecErr (List AgentResult) :=
  runLoop env mc (2 * tasks.length + 1) (initState tasks)

/-- The trace of loop states: `stepN n` is the state after `n` iterations (the
iteration is the identity once the loop's exit condition holds, so every `n`
names a reachable state). Invariant claims quantify over this trace. -/
def stepN (env : ExecEnv) (mc : Int) : Nat → ExecState → Except ExecErr ExecState
  | 0, st => .ok st
  | n + 1, st =>
    if st.queue.isEmpty && st.inflight.isEmpty then stepN env mc n st
    else
      match stepRound env mc st with
      | .ok st1 => stepN env mc n st1
      | .error e => .error e

/-- A schedule is progressive when it always lets at least one of the in-flight
tasks finish; the source's executors "must eventually resolve" (spec §6). -/
def Progressive (sched : List String → List String) : Prop :=
  ∀ ids : List String, ids ≠ [] → ∃ i ∈ ids, i ∈ sched ids

/-! ## Lemmas about the endpoint search and backtracking -/

/-- The endpoint fold never forgets an endpoint it has picked. -/
lemma findEndpoint_go_ne_none (dag : DAG) (l : List (String × DAGNode))
    (acc : Option String × ℚ) (h : acc.1 ≠ none) :
    (l.foldl
      (fun acc p =>
        let finish := esOf dag p.1 + durOf dag p.1
        if acc.2 < finish then (some p.1, finish) else acc)
      acc).1 ≠ none := by
  induction l generalizing acc with
  | nil => exact h
  | cons p ps ih =>
    simp only [List.foldl_cons]
    by_cases hlt : acc.2 < esOf dag p.1 + durOf dag p.1
    · exact ih _ (by simp [hlt])
    · exact ih _ (by simpa [hlt] using h)

/-- The endpoint stays `null` exactly when every finish seen is at most the
running maximum (which then stays at its initial value). -/
lemma findEndpoint_go_none_iff (dag : DAG) (l : List (String × DAGNode)) (m : ℚ) :
    (l.foldl
      (fun acc p =>
        let finish := esOf dag p.1 + durOf dag p.1
        if acc.2 < finish then (some p.1, finish) else acc)
      (none, m)).1 = none ↔ ∀ p ∈ l, esOf dag p.1 + durOf dag p.1 ≤ m := by
  induction l generalizing m with
  | nil => simp
  | cons p ps ih =>
    simp only [List.foldl_cons, List.mem_cons]
    by_cases hlt : m < esOf dag p.1 + durOf dag p.1
    · simp only [if_pos hlt]
      constructor
      · intro h
        exact absurd h (findEndpoint_go_ne_none dag ps _ (by simp))
      · intro h
        exact absurd (h p (Or.inl rfl)) (not_le.mpr hlt)
    · simp only [if_neg hlt, ih]
      constructor
      · intro h
        rintro q (rfl | hq)
        · exact not_lt.mp hlt
        · exact h q hq
      · intro h q hq
        exact h q (Or.inr hq)

/-- `findEndpoint` yields no endpoint iff every node's earliest finish is ≤ 0. -/
lemma findEndpoint_none_iff (dag : DAG) :
    (findEndpoint dag).1 = none ↔
      ∀ p ∈ dag.nodes, esOf dag p.1 + durOf dag p.1 ≤ 0 :=
  findEndpoint_go_none_iff dag dag.nodes 0

/-- Backtracking always returns a list containing the node it started from. -/
lemma backtrack_ne_nil (dag : DAG) :
    ∀ fuel cur acc l, backtrack dag fuel cur acc = .ok l → l ≠ [] := by
  intro fuel
  induction fuel with
  | zero => intro cur acc l h; simp [backtrack] at h
  | succ fuel ih =>
    intro cur acc l h
    rw [backtrack] at h
    split at h
    · exact absurd h (by simp)
    · split at h
      · exact ih _ _ _ h
      · cases h; simp

/-- **C3, amended.** `identifyCriticalPath` returns an empty sequence exactly
when every node's computed earliest finish is ≤ 0 — so not only for the
zero-node DAG: a non-empty DAG whose estimated durations are all 0 also yields
an empty critical path (endpoint search starts at `maxFinish = 0` with a strict
comparison, so no endpoint is ever picked). -/
theorem claim_C3_amended (dag : DAG) (l : List String)
    (h : identifyCriticalPath dag = .ok l) :
    l = [] ↔ ∀ p ∈ dag.nodes, esOf dag p.1 + durOf dag p.1 ≤ 0 := by
  unfold identifyCriticalPath at h
  rcases hfe : findEndpoint dag with ⟨opt, m⟩
  rw [hfe] at h
  cases opt with
  | none =>
    cases h
    simp only [true_iff]
    have := (findEndpoint_none_iff dag).mp (by rw [hfe])
    exact this
  | some e =>
    constructor
    · intro hl
      subst hl
      exact absurd rfl (backtrack_ne_nil dag _ e [] [] h)
    · intro hall
      have : (findEndpoint dag).1 = none := (findEndpoint_none_iff dag).mpr hall
      rw [hfe] at this
      cases this

/-- The single zero-duration task of the C3 counterexample. -/
def c3Task : Task := { id := "Z", estimatedHours := 0 }

/-- The DAG `buildDAG` produces for it. -/
def c3Dag : DAG :=
  ⟨[("Z", ⟨c3Task, [], [], 0⟩)], [[⟨c3Task, [], [], 0⟩]], []⟩

/-- **C3, counterexample.** A one-node DAG (node of duration 0) built by
`buildDAG` gets an empty critical path, refuting "empty only when the DAG has
zero nodes". -/
theorem claim_C3_counterexample :
    buildDAG [c3Task] = .ok c3Dag ∧ c3Dag.nodes.length = 1 ∧
      identifyCriticalPath c3Dag = .ok [] := by
  refine ⟨?_, rfl, ?_⟩
  · simp [buildDAG, visitAll, visit, visitDeps, mkNodes, addEdges, setNode,
      lookupNode, pushLevel, c3Task, c3Dag]
  · simp [identifyCriticalPath, findEndpoint, esOf, durOf, esTable, durTable,
      lookupQ, c3Dag, c3Task]

/-- Witness for `claim_C3_amended` at the one-node zero-duration DAG. -/
theorem claim_C3_witness :
    identifyCriticalPath c3Dag = .ok [] ∧
      (([] : List String) = [] ↔
        ∀ p ∈ c3Dag.nodes, esOf c3Dag p.1 + durOf c3Dag p.1 ≤ 0) :=
  ⟨by simp [identifyCriticalPath, findEndpoint, esOf, durOf, esTable, durTable,
      lookupQ, c3Dag, c3Task],
   claim_C3_amended c3Dag []
    (by simp [identifyCriticalPath, findEndpoint, esOf, durOf, esTable, durTable,
        lookupQ, c3Dag, c3Task])⟩

/-! ## C9: role assignment and priority-ordered, stable output -/

/-- The claim's role rule, written from the spec's words: the explicit assigned
role verbatim when present; otherwise the first case-insensitive label-substring
match in the fixed order "test", "deploy", "review", "pr"/"pull", "issue";
otherwise the code-generation role. -/
def specAgentType (t : Task) : String :=
  match t.assignedAgent with
  | some r => r
  | none =>
    let ls := t.labels.map jsToLower
    if ls.any (fun l => jsIncludes l "test") then "test"
    else if ls.any (fun l => jsIncludes l "deploy") then "deploy"
    else if ls.any (fun l => jsIncludes l "review") then "review"
    else if ls.any (fun l => jsIncludes l "pr" || jsIncludes l "pull") then "pr"
    else if ls.any (fun l => jsIncludes l "issue") then "issue"
    else "codegen"

/-- `determineAgentType` agrees with the spec's rule on every task whose
explicit role, if any, is non-empty (JS truthiness: an explicitly assigned
empty-string role is falsy and is treated as absent). -/
lemma determineAgentType_eq_spec (t : Task) (h : t.assignedAgent ≠ some "") :
    determineAgentType t = specAgentType t := by
  unfold determineAgentType specAgentType
  cases ha : t.assignedAgent with
  | some r =>
    have hr : r ≠ "" := by rintro rfl; exact h ha
    simp [ha, hr]
  | none => simp [ha]

/-- `insertDesc` inserts its argument somewhere in the list. -/
lemma insertDesc_perm (a : AgentAssignment) (l : List AgentAssignment) :
    (insertDesc a l).Perm (a :: l) := by
  induction l with
  | nil => simp [insertDesc]
  | cons b bs ih =>
    unfold insertDesc
    by_cases hb : b.priority ≤ a.priority
    · simp [hb]
    · simp only [if_neg hb]
      exact (ih.cons b).trans (List.Perm.swap a b bs)

/-- `insertDesc` preserves descending order by priority. -/
lemma insertDesc_sorted (a : AgentAssignment) (l : List AgentAssignment)
    (h : l.Pairwise (fun x y => y.priority ≤ x.priority)) :
    (insertDesc a l).Pairwise (fun x y => y.priority ≤ x.priority) := by
  induction l with
  | nil => simp [insertDesc]
  | cons b bs ih =>
    rcases List.pairwise_cons.mp h with ⟨hb, hbs⟩
    unfold insertDesc
    by_cases hba : b.priority ≤ a.priority
    · rw [if_pos hba]
      refine List.pairwise_cons.mpr ⟨?_, h⟩
      intro y hy
      rcases List.mem_cons.mp hy with rfl | hy
      · exact hba
      · exact le_trans (hb y hy) hba
    · rw [if_neg hba]
      refine List.pairwise_cons.mpr ⟨?_, ih hbs⟩
      intro y hy
      rcases List.mem_cons.mp ((insertDesc_perm a bs).mem_iff.mp hy) with rfl | hy
      · exact le_of_lt (lt_of_not_le hba)
      · exact hb y hy

/-- Elements of the same priority as the inserted one keep their order: the
skipped prefix consists of strictly greater priorities. -/
lemma insertDesc_filter_eq (a : AgentAssignment) (l : List AgentAssignment) :
    (insertDesc a l).filter (fun x => x.priority == a.priority) =
      a :: l.filter (fun x => x.priority == a.priority) := by
  induction l with
  | nil => simp [insertDesc]
  | cons b bs ih =>
    unfold insertDesc
    by_cases hba : b.priority ≤ a.priority
    · simp [hba]
    · have hne : (b.priority == a.priority) = false := by
        simp only [beq_eq_false_iff_ne, ne_eq]
        intro he
        exact hba (le_of_eq he)
      simp [hba, hne, ih]

/-- Filters at other priorities are untouched by the insertion. -/
lemma insertDesc_filter_ne (a : AgentAssignment) (l : List AgentAssignment)
    (w : Nat) (hw : a.priority ≠ w) :
    (insertDesc a l).filter (fun x => x.priority == w) =
      l.filter (fun x => x.priority == w) := by
  induction l with
  | nil => simp [insertDesc, hw]
  | cons b bs ih =>
    unfold insertDesc
    by_cases hba : b.priority ≤ a.priority
    · simp [hba, hw]
    · by_cases hbw : b.priority == w <;> simp [hba, hbw, ih]

/-- The stable sort is a permutation of its input. -/
lemma sortByPriorityDesc_perm (l : List AgentAssignment) :
    (sortByPriorityDesc l).Perm l := by
  induction l with
  | nil => simp [sortByPriorityDesc]
  | cons a as ih => exact (insertDesc_perm a _).trans (ih.cons a)

/-- The stable sort's output is descending by priority. -/
lemma sortByPriorityDesc_sorted (l : List AgentAssignment) :
    (sortByPriorityDesc l).Pairwise (fun x y => y.priority ≤ x.priority) := by
  induction l with
  | nil => simp [sortByPriorityDesc]
  | cons a as ih => exact insertDesc_sorted a _ ih

/-- Stability: within each priority weight, the sort preserves the input
order of the assignments. -/
lemma sortByPriorityDesc_filter (l : List AgentAssignment) (w : Nat) :
    (sortByPriorityDesc l).filter (fun x => x.priority == w) =
      l.filter (fun x => x.priority == w) := by
  induction l with
  | nil => simp [sortByPriorityDesc]
  | cons a as ih =>
    unfold sortByPriorityDesc
    by_cases hw : a.priority = w
    · subst hw
      rw [insertDesc_filter_eq, ih]
      simp
    · rw [insertDesc_filter_ne a _ w hw, ih]
      have : (a.priority == w) = false := by simpa using hw
      simp [this]

/-- **C9.** `assignAgents` maps each task to the spec's role (explicit
non-empty role verbatim, else first label-substring match in the fixed order
test, deploy, review, pr/pull, issue, else codegen), weights priorities
Critical=4, High=3, Medium=2, Low=1, unrecognized=0, and returns the
assignments in descending weight order, stably (each weight class keeps the
task order), as a permutation of the per-task assignments. -/
theorem claim_C9 (tasks : List Task)
    (h : ∀ t ∈ tasks, t.assignedAgent ≠ some "") :
    (assignAgents tasks).Perm (tasks.map mkAssignment) ∧
    (assignAgents tasks).Pairwise (fun x y => y.priority ≤ x.priority) ∧
    (∀ w : Nat, (assignAgents tasks).filter (fun x => x.priority == w) =
      (tasks.map mkAssignment).filter (fun x => x.priority == w)) ∧
    (∀ t ∈ tasks, mkAssignment t =
      ⟨t.id, specAgentType t, getPriorityValue t.priority⟩) ∧
    getPriorityValue .p0Critical = 4 ∧ getPriorityValue .p1High = 3 ∧
    getPriorityValue .p2Medium = 2 ∧ getPriorityValue .p3Low = 1 ∧
    (∀ s, getPriorityValue (.other s) = 0) := by
  refine ⟨sortByPriorityDesc_perm _, sortByPriorityDesc_sorted _,
    fun w => sortByPriorityDesc_filter _ w, ?_, rfl, rfl, rfl, rfl, fun _ => rfl⟩
  intro t ht
  unfold mkAssignment
  rw [determineAgentType_eq_spec t (h t ht)]

/-- The three tasks of the spec's assignment-ordering example (priorities Low,
Critical, Medium; one test label, one deploy label). -/
def c9Tasks : List Task :=
  [{ id := "t1", priority := .p3Low, labels := ["type:test"] },
   { id := "t2", priority := .p0Critical },
   { id := "t3", priority := .p2Medium, labels := ["deploy-now"] }]

/-- Witness for `claim_C9` on the example tasks; the concrete output is ordered
Critical, Medium, Low with the label-derived roles. -/
theorem claim_C9_witness :
    (∀ t ∈ c9Tasks, t.assignedAgent ≠ some "") ∧
    ((assignAgents c9Tasks).Perm (c9Tasks.map mkAssignment) ∧
      (assignAgents c9Tasks).Pairwise (fun x y => y.priority ≤ x.priority) ∧
      (∀ w : Nat, (assignAgents c9Tasks).filter (fun x => x.priority == w) =
        (c9Tasks.map mkAssignment).filter (fun x => x.priority == w)) ∧
      (∀ t ∈ c9Tasks, mkAssignment t =
        ⟨t.id, specAgentType t, getPriorityValue t.priority⟩) ∧
      getPriorityValue .p0Critical = 4 ∧ getPriorityValue .p1High = 3 ∧
      getPriorityValue .p2Medium = 2 ∧ getPriorityValue .p3Low = 1 ∧
      (∀ s, getPriorityValue (.other s) = 0)) ∧
    assignAgents c9Tasks =
      [⟨"t2", "codegen", 4⟩, ⟨"t3", "deploy", 2⟩, ⟨"t1", "test", 1⟩] :=
  ⟨by decide, claim_C9 c9Tasks (by decide), by decide⟩

/-! ## C1: absent dependency ids make `buildDAG` fail — but not with a
dedicated unknown-dependency error -/

/-- The key list of a node map, in insertion order. -/
def keysOf (m : List (String × DAGNode)) : List String := m.map (·.1)

lemma lookupNode_mem_keys {m : List (String × DAGNode)} {k : String} {nd : DAGNode}
    (h : lookupNode m k = some nd) : k ∈ keysOf m := by
  induction m with
  | nil => simp [lookupNode] at h
  | cons p ps ih =>
    rw [lookupNode, List.find?] at h
    by_cases hk : p.1 = k
    · simp [keysOf, hk]
    · have : (p.1 == k) = false := by simpa using hk
      rw [this] at h
      simp only [keysOf, List.map_cons, List.mem_cons]
      exact Or.inr (ih h)

lemma mem_keys_lookupNode {m : List (String × DAGNode)} {k : String}
    (h : k ∈ keysOf m) : ∃ nd, lookupNode m k = some nd := by
  induction m with
  | nil => simp [keysOf] at h
  | cons p ps ih =>
    by_cases hk : p.1 = k
    · exact ⟨p.2, by simp [lookupNode, List.find?, hk]⟩
    · have hm : k ∈ keysOf ps := by
        rcases List.mem_cons.mp h with h1 | h1
        · exact absurd h1.symm hk
        · exact h1
      rcases ih hm with ⟨nd, hnd⟩
      refine ⟨nd, ?_⟩
      have : (p.1 == k) = false := by simpa using hk
      rw [lookupNode, List.find?, this]
      exact hnd

lemma lookupNode_setNode_self (m : List (String × DAGNode)) (k : String) (v : DAGNode) :
    lookupNode (setNode m k v) k = some v := by
  induction m with
  | nil => simp [setNode, lookupNode, List.find?]
  | cons p ps ih =>
    rw [setNode]
    by_cases hk : p.1 = k
    · simp [hk, lookupNode, List.find?]
    · have : (p.1 == k) = false := by simpa using hk
      rw [if_neg (by simp [hk])]
      rw [lookupNode, List.find?, this]
      exact ih

lemma lookupNode_setNode_ne (m : List (String × DAGNode)) (k : String) (v : DAGNode)
    (k' : String) (h : k' ≠ k) :
    lookupNode (setNode m k v) k' = lookupNode m k' := by
  induction m with
  | nil =>
    have h1 : (k == k') = false := by
      simp only [beq_eq_false_iff_ne, ne_eq]
      exact fun hh => h hh.symm
    simp [setNode, lookupNode, List.find?, h1]
  | cons p ps ih =>
    rw [setNode]
    by_cases hk : p.1 = k
    · subst hk
      have h1 : (p.1 == k') = false := by simpa using fun hh => h hh.symm
      simp [lookupNode, List.find?, h1]
    · rw [if_neg (by simp [hk])]
      by_cases hk' : p.1 = k'
      · simp [lookupNode, List.find?, hk']
      · have h1 : (p.1 == k') = false := by simpa using hk'
        rw [lookupNode, List.find?, h1, lookupNode, List.find?, h1]
        exact ih

lemma keysOf_setNode_mem (m : List (String × DAGNode)) (k : String) (v : DAGNode)
    (h : k ∈ keysOf m) : keysOf (setNode m k v) = keysOf m := by
  induction m with
  | nil => simp [keysOf] at h
  | cons p ps ih =>
    rw [setNode]
    by_cases hk : p.1 = k
    · simp [keysOf, hk]
    · rw [if_neg (by simp [hk])]
      have hm : k ∈ keysOf ps := by
        rcases List.mem_cons.mp h with h1 | h1
        · exact absurd h1.symm hk
        · exact h1
      have h2 := ih hm
      simp only [keysOf, List.map_cons] at h2 ⊢
      rw [h2]

lemma keysOf_setNode_not_mem (m : List (String × DAGNode)) (k : String) (v : DAGNode)
    (h : k ∉ keysOf m) : keysOf (setNode m k v) = keysOf m ++ [k] := by
  induction m with
  | nil => simp [setNode, keysOf]
  | cons p ps ih =>
    have hk : p.1 ≠ k := fun hh => h (by simp [keysOf, hh])
    rw [setNode, if_neg (by simp [hk])]
    have h2 := ih (fun hh => h (by simp [keysOf] at hh ⊢; exact Or.inr hh))
    simp only [keysOf, List.map_cons, List.cons_append] at h2 ⊢
    rw [h2]

/-- Two node maps with the same keys and the same dependency list under every
key (levels, dependents and task payloads may differ). -/
def PreservesDeps (m m' : List (String × DAGNode)) : Prop :=
  keysOf m' = keysOf m ∧
  ∀ id, (lookupNode m' id).map (·.dependencies) = (lookupNode m id).map (·.dependencies)

lemma preservesDeps_refl (m : List (String × DAGNode)) : PreservesDeps m m :=
  ⟨rfl, fun _ => rfl⟩

lemma preservesDeps_trans {a b c : List (String × DAGNode)}
    (h1 : PreservesDeps a b) (h2 : PreservesDeps b c) : PreservesDeps a c :=
  ⟨h2.1.trans h1.1, fun id => (h2.2 id).trans (h1.2 id)⟩

lemma preservesDeps_setNode {m : List (String × DAGNode)} {k : String}
    {nd v : DAGNode} (h : lookupNode m k = some nd)
    (hdep : v.dependencies = nd.dependencies) :
    PreservesDeps m (setNode m k v) := by
  constructor
  · exact keysOf_setNode_mem m k v (lookupNode_mem_keys h)
  · intro id
    by_cases hid : id = k
    · subst hid
      rw [lookupNode_setNode_self, h]
      simp [hdep]
    · rw [lookupNode_setNode_ne m k v id hid]

lemma foldl_preservesDeps {β : Type} (f : List (String × DAGNode) → β → List (String × DAGNode))
    (hf : ∀ acc b, PreservesDeps acc (f acc b)) :
    ∀ (l : List β) (acc : List (String × DAGNode)), PreservesDeps acc (l.foldl f acc) := by
  intro l
  induction l with
  | nil => intro acc; exact preservesDeps_refl acc
  | cons b bs ih =>
    intro acc
    exact preservesDeps_trans (hf acc b) (ih (f acc b))

/-- The reverse-edge pass changes only `dependents` fields. -/
lemma addEdges_preservesDeps (m : List (String × DAGNode)) :
    PreservesDeps m (addEdges m) := by
  unfold addEdges
  refine foldl_preservesDeps _ ?_ _ m
  intro acc idDeps
  refine foldl_preservesDeps _ ?_ _ acc
  intro acc2 depId
  cases hl : lookupNode acc2 depId with
  | none => simp [hl, preservesDeps_refl]
  | some depNode =>
    simp only [hl]
    exact preservesDeps_setNode hl rfl

/-- Every visited id has a node in the map, and all that node's dependency ids
are keys of the map. -/
def GoodV (st : BuildSt) : Prop :=
  ∀ v ∈ st.visited, ∃ nd, lookupNode st.nodes v = some nd ∧
    ∀ d ∈ nd.dependencies, d ∈ keysOf st.nodes

/-- What a successful `visit` guarantees. -/
def VPost (st : BuildSt) (id : String) (st' : BuildSt) : Prop :=
  GoodV st' ∧ PreservesDeps st.nodes st'.nodes ∧ st.visited ⊆ st'.visited ∧
    id ∈ st'.visited ∧ id ∈ keysOf st.nodes

/-- What a successful `visitDeps` guarantees. -/
def DPost (st : BuildSt) (ds : List String) (st' : BuildSt) : Prop :=
  GoodV st' ∧ PreservesDeps st.nodes st'.nodes ∧ st.visited ⊆ st'.visited ∧
    ∀ d ∈ ds, d ∈ keysOf st.nodes

/-- A successful `visit` (resp. `visitDeps`) starting from a good state lands in
a good state, preserves keys and dependency lists, grows the visited set, and
every id it returned from is a key of the map. -/
lemma visit_good : ∀ fuel : Nat,
    (∀ st id l st', GoodV st → visit fuel st id = .ok (l, st') → VPost st id st') ∧
    (∀ ds st m r st', GoodV st → visitDeps fuel st ds m = .ok (r, st') →
      DPost st ds st') := by
  intro fuel
  induction fuel with
  | zero =>
    constructor
    · intro st id l st' _ h
      rw [visit] at h
      cases h
    · intro ds
      cases ds with
      | nil =>
        intro st m r st' hg h
        rw [visitDeps] at h
        cases h
        exact ⟨hg, preservesDeps_refl _, fun a ha => ha, by simp⟩
      | cons d ds =>
        intro st m r st' hg h
        rw [visitDeps, visit] at h
        cases h
  | succ fuel ih =>
    obtain ⟨ihV, ihD⟩ := ih
    have hV : ∀ st id l st', GoodV st → visit (fuel + 1) st id = .ok (l, st') →
        VPost st id st' := by
      intro st id l st' hg h
      rw [visit] at h
      by_cases hvis : id ∈ st.visited
      · have hc : st.visited.contains id = true := by simpa using hvis
        rw [if_pos hc] at h
        cases hl : lookupNode st.nodes id with
        | none => rw [hl] at h; cases h
        | some node =>
          rw [hl] at h
          cases h
          exact ⟨hg, preservesDeps_refl _, fun a ha => ha, hvis,
            lookupNode_mem_keys hl⟩
      · rw [if_neg (by simpa using hvis)] at h
        by_cases hip : id ∈ st.inProg
        · have hc2 : st.inProg.contains id = true := by simpa using hip
          rw [if_pos hc2] at h
          cases h
        · rw [if_neg (by simpa using hip)] at h
          dsimp only at h
          cases hl : lookupNode st.nodes id with
          | none => rw [hl] at h; cases h
          | some node =>
            rw [hl] at h
            dsimp only at h
            cases hd : visitDeps fuel { st with inProg := id :: st.inProg }
                node.dependencies (-1) with
            | error e => rw [hd] at h; cases h
            | ok p =>
              obtain ⟨mdl, st2⟩ := p
              rw [hd] at h
              cases h
              obtain ⟨hg2, hpd, hsub, hdk⟩ :=
                ihD node.dependencies { st with inProg := id :: st.inProg }
                  (-1) mdl st2 hg hd
              have hidk : id ∈ keysOf st.nodes := lookupNode_mem_keys hl
              have hkeys2 : keysOf st2.nodes = keysOf st.nodes := hpd.1
              have hl2m : (lookupNode st2.nodes id).map (·.dependencies) =
                  some node.dependencies := by
                rw [hpd.2 id, hl]
                rfl
              cases hl2 : lookupNode st2.nodes id with
              | none => rw [hl2] at hl2m; cases hl2m
              | some nd2 =>
                rw [hl2] at hl2m
                have hdep2 : nd2.dependencies = node.dependencies := by
                  simpa using hl2m
                have hpd3 : PreservesDeps st2.nodes
                    (setNode st2.nodes id { node with level := mdl + 1 }) :=
                  preservesDeps_setNode hl2 hdep2.symm
                have hkeys3 : keysOf (setNode st2.nodes id
                    { node with level := mdl + 1 }) = keysOf st2.nodes :=
                  keysOf_setNode_mem _ _ _ (hkeys2 ▸ hidk)
                refine ⟨?_, preservesDeps_trans hpd hpd3, ?_, ?_, hidk⟩
                · intro v hv
                  by_cases hvid : v = id
                  · subst hvid
                    refine ⟨{ node with level := mdl + 1 },
                      lookupNode_setNode_self _ _ _, ?_⟩
                    intro d hdmem
                    rw [hkeys3, hkeys2]
                    exact hdk d hdmem
                  · have hv2 : v ∈ st2.visited := by
                      rcases List.mem_append.mp hv with h1 | h1
                      · exact h1
                      · exact absurd (List.mem_singleton.mp h1) hvid
                    obtain ⟨nd, hnd, hnds⟩ := hg2 v hv2
                    refine ⟨nd, ?_, ?_⟩
                    · rw [lookupNode_setNode_ne _ _ _ _ hvid]
                      exact hnd
                    · intro d hdmem
                      rw [hkeys3]
                      exact hnds d hdmem
                · intro a ha
                  exact List.mem_append.mpr (Or.inl (hsub ha))
                · exact List.mem_append.mpr (Or.inr (List.mem_singleton.mpr rfl))
    refine ⟨hV, ?_⟩
    intro ds
    induction ds with
    | nil =>
      intro st m r st' hg h
      rw [visitDeps] at h
      cases h
      exact ⟨hg, preservesDeps_refl _, fun a ha => ha, by simp⟩
    | cons d ds ihds =>
      intro st m r st' hg h
      rw [visitDeps] at h
      cases hv1 : visit (fuel + 1) st d with
      | error e => rw [hv1] at h; cases h
      | ok p =>
        obtain ⟨l, st1⟩ := p
        rw [hv1] at h
        obtain ⟨hg1, hpd1, hsub1, _, hk1⟩ := hV st d l st1 hg hv1
        obtain ⟨hg2, hpd2, hsub2, hk2⟩ := ihds st1 (max m l) r st' hg1 h
        refine ⟨hg2, preservesDeps_trans hpd1 hpd2,
          fun a ha => hsub2 (hsub1 ha), ?_⟩
        intro d2 hd2
        rcases List.mem_cons.mp hd2 with rfl | hd2
        · exact hk1
        · rw [← hpd1.1]
          exact hk2 d2 hd2

/-- A successful `visitAll` from a good state ends good, preserves keys and
dependency lists, and has visited every listed id. -/
lemma visitAll_good (fuel : Nat) : ∀ (ids : List String) (st st' : BuildSt),
    GoodV st → visitAll fuel st ids = .ok st' →
    GoodV st' ∧ PreservesDeps st.nodes st'.nodes ∧ st.visited ⊆ st'.visited ∧
      ∀ id ∈ ids, id ∈ st'.visited := by
  intro ids
  induction ids with
  | nil =>
    intro st st' hg h
    rw [visitAll] at h
    cases h
    exact ⟨hg, preservesDeps_refl _, fun a ha => ha, by simp⟩
  | cons id ids ih =>
    intro st st' hg h
    rw [visitAll] at h
    cases hv : visit fuel st id with
    | error e => rw [hv] at h; cases h
    | ok p =>
      obtain ⟨l, st1⟩ := p
      rw [hv] at h
      obtain ⟨hg1, hpd1, hsub1, hmem1, _⟩ := (visit_good fuel).1 st id l st1 hg hv
      obtain ⟨hg2, hpd2, hsub2, hmem2⟩ := ih st1 st' hg1 h
      refine ⟨hg2, preservesDeps_trans hpd1 hpd2,
        fun a ha => hsub2 (hsub1 ha), ?_⟩
      intro i hi
      rcases List.mem_cons.mp hi with rfl | hi
      · exact hsub2 hmem1
      · exact hmem2 i hi

/-- `mkNodes`, seen through its fold: fresh ids are appended in task order, each
bound to a fresh node copying that task's dependencies. -/
lemma mkNodes_go (tasks : List Task) : ∀ m : List (String × DAGNode),
    (tasks.map (·.id)).Nodup → (∀ t ∈ tasks, t.id ∉ keysOf m) →
    keysOf (tasks.foldl (fun acc t => setNode acc t.id ⟨t, t.dependencies, [], 0⟩) m) =
        keysOf m ++ tasks.map (·.id) ∧
    (∀ k ∈ keysOf m,
      lookupNode (tasks.foldl (fun acc t => setNode acc t.id ⟨t, t.dependencies, [], 0⟩) m) k =
        lookupNode m k) ∧
    (∀ t ∈ tasks,
      lookupNode (tasks.foldl (fun acc t => setNode acc t.id ⟨t, t.dependencies, [], 0⟩) m) t.id =
        some ⟨t, t.dependencies, [], 0⟩) := by
  induction tasks with
  | nil =>
    intro m _ _
    exact ⟨by simp, fun k _ => rfl, by simp⟩
  | cons t ts ih =>
    intro m hnd hfresh
    have hfid : t.id ∉ keysOf m := hfresh t (List.mem_cons_self t ts)
    have hnd2 : (ts.map (·.id)).Nodup := (List.nodup_cons.mp hnd).2
    have hhead : t.id ∉ ts.map (·.id) := (List.nodup_cons.mp hnd).1
    have hkeys1 : keysOf (setNode m t.id ⟨t, t.dependencies, [], 0⟩) =
        keysOf m ++ [t.id] := keysOf_setNode_not_mem m t.id _ hfid
    have hfresh2 : ∀ u ∈ ts, u.id ∉ keysOf (setNode m t.id ⟨t, t.dependencies, [], 0⟩) := by
      intro u hu hmem
      rw [hkeys1] at hmem
      rcases List.mem_append.mp hmem with h1 | h1
      · exact hfresh u (List.mem_cons_of_mem t hu) h1
      · exact hhead (List.mem_singleton.mp h1 ▸ List.mem_map_of_mem (·.id) hu)
    obtain ⟨ihk, ihp, ihl⟩ := ih (setNode m t.id ⟨t, t.dependencies, [], 0⟩) hnd2 hfresh2
    refine ⟨?_, ?_, ?_⟩
    · simp only [List.foldl_cons, List.map_cons]
      rw [ihk, hkeys1]
      simp
    · intro k hk
      simp only [List.foldl_cons]
      have hkne : k ≠ t.id := fun hh => hfid (hh ▸ hk)
      rw [ihp k (by rw [hkeys1]; exact List.mem_append.mpr (Or.inl hk))]
      exact lookupNode_setNode_ne m t.id _ k hkne
    · intro u hu
      rcases List.mem_cons.mp hu with rfl | hu
      · simp only [List.foldl_cons]
        rw [ihp u.id (by rw [hkeys1]; simp)]
        exact lookupNode_setNode_self m u.id _
      · simp only [List.foldl_cons]
        exact ihl u hu

/-- Key list of `mkNodes` under unique ids. -/
lemma mkNodes_keys (tasks : List Task) (hN : (tasks.map (·.id)).Nodup) :
    keysOf (mkNodes tasks) = tasks.map (·.id) := by
  unfold mkNodes
  have h := (mkNodes_go tasks [] hN (by simp [keysOf])).1
  simpa [keysOf] using h

/-- Bindings of `mkNodes` under unique ids. -/
lemma mkNodes_lookup (tasks : List Task) (hN : (tasks.map (·.id)).Nodup)
    (t : Task) (ht : t ∈ tasks) :
    lookupNode (mkNodes tasks) t.id = some ⟨t, t.dependencies, [], 0⟩ := by
  unfold mkNodes
  exact (mkNodes_go tasks [] hN (by simp [keysOf])).2.2 t ht

/-- **C1, amended (general part).** For every task batch with unique ids in
which some task names a dependency id absent from the batch, `buildDAG` fails
(it never returns a DAG): the reverse-edge pass silently skips the absent
edge, and the level computation then crashes dereferencing the missing node.
The failure however is not a dedicated `UnknownDependencyError`: the model's
concrete run (see the counterexample) produces the `typeError` of
`nodes.get(id)!` on `undefined`, which does not name the absent dependency. -/
theorem claim_C1_amended (tasks : List Task) (hN : (tasks.map (·.id)).Nodup)
    (t : Task) (ht : t ∈ tasks) (d : String) (hd : d ∈ t.dependencies)
    (hmiss : d ∉ tasks.map (·.id)) (dag : DAG) :
    buildDAG tasks ≠ .ok dag := by
  intro h
  unfold buildDAG at h
  dsimp only at h
  cases hva : visitAll (tasks.length + 2)
      ⟨addEdges (mkNodes tasks), [], [], []⟩
      ((addEdges (mkNodes tasks)).map (·.1)) with
  | error e => rw [hva] at h; cases h
  | ok st =>
    rw [hva] at h
    have hkeys0 : keysOf (addEdges (mkNodes tasks)) = tasks.map (·.id) := by
      rw [(addEdges_preservesDeps (mkNodes tasks)).1, mkNodes_keys tasks hN]
    have hginit : GoodV ⟨addEdges (mkNodes tasks), [], [], []⟩ := by
      intro v hv
      cases hv
    obtain ⟨hgf, hpdf, _, hvisf⟩ :=
      visitAll_good (tasks.length + 2) ((addEdges (mkNodes tasks)).map (·.1))
        ⟨addEdges (mkNodes tasks), [], [], []⟩ st hginit hva
    have htid : t.id ∈ keysOf (addEdges (mkNodes tasks)) := by
      rw [hkeys0]
      exact List.mem_map_of_mem (·.id) ht
    have htvis : t.id ∈ st.visited := hvisf t.id htid
    obtain ⟨nd, hnd, hnds⟩ := hgf t.id htvis
    have hdeps : (lookupNode st.nodes t.id).map (·.dependencies) =
        some t.dependencies := by
      rw [hpdf.2 t.id, (addEdges_preservesDeps (mkNodes tasks)).2 t.id,
        mkNodes_lookup tasks hN t ht]
      rfl
    rw [hnd] at hdeps
    have hnddeps : nd.dependencies = t.dependencies := by simpa using hdeps
    have hdk : d ∈ keysOf st.nodes := hnds d (hnddeps ▸ hd)
    rw [hpdf.1, hkeys0] at hdk
    exact hmiss hdk

/-- The task of the C1 counterexample: its only dependency id is absent. -/
def c1Task : Task := { id := "a", dependencies := ["x"] }

/-- **C1, counterexample.** On a task whose dependency id is absent from the
batch, `buildDAG` does not fail with a dedicated unknown-dependency error
naming `"x"`: the reverse-edge pass silently skips the edge (the node map is
unchanged by it), and the failure is the undefined-node dereference
(`TypeError`), which carries no dependency id. -/
theorem claim_C1_counterexample :
    buildDAG [c1Task] = .error .typeError ∧
      addEdges (mkNodes [c1Task]) = mkNodes [c1Task] := by
  constructor
  · simp [buildDAG, visitAll, visit, visitDeps, mkNodes, addEdges, setNode,
      lookupNode, pushLevel, c1Task]
  · decide

/-- Witness for `claim_C1_amended` at the concrete one-task batch. -/
theorem claim_C1_witness :
    ((([c1Task].map (·.id)).Nodup) ∧ c1Task ∈ [c1Task] ∧
      "x" ∈ c1Task.dependencies ∧ "x" ∉ [c1Task].map (·.id)) ∧
    buildDAG [c1Task] ≠ .ok ⟨[], [], []⟩ :=
  ⟨by decide, claim_C1_amended [c1Task] (by decide) c1Task (by decide) "x"
    (by decide) (by decide) ⟨[], [], []⟩⟩

/-! ## C4: the deadlock branch -/

/-- μ: the loop's progress measure. -/
def muExec (s : ExecState) : Nat := 2 * s.queue.length + s.inflight.length

/-- `stepRound` at a deadlocked state (non-empty queue, nothing ready, nothing
in flight) throws the deadlock error. -/
lemma stepRound_deadlock (env : ExecEnv) (mc : Int) (s : ExecState)
    (hq : s.queue ≠ []) (hi : s.inflight = []) (hr : readyTasks s = []) :
    stepRound env mc s = .error .deadlock := by
  unfold stepRound
  rw [hr]
  have h1 : jsSliceTo (mc - s.inflight.length) ([] : List Task) = [] := by
    simp [jsSliceTo]
  rw [h1]
  simp [hi, hq]

/-- Once the loop's exit condition holds, the trace is constant. -/
lemma stepN_of_empty (env : ExecEnv) (mc : Int) (n : Nat) (s : ExecState)
    (hq : s.queue = []) (hi : s.inflight = []) :
    stepN env mc n s = .ok s := by
  induction n with
  | zero => rfl
  | succ n ih =>
    rw [stepN]
    simp [hq, hi, ih]

/-- If the trace reaches a deadlocked state within the loop's fuel, the loop
run fails with the deadlock error (discarding the results collected so far). -/
lemma runLoop_deadlock_of_reach (env : ExecEnv) (mc : Int) :
    ∀ (k fuel : Nat) (st s : ExecState), k < fuel →
      stepN env mc k st = .ok s →
      s.queue ≠ [] → s.inflight = [] → readyTasks s = [] →
      runLoop env mc fuel st = .error .deadlock := by
  intro k
  induction k with
  | zero =>
    intro fuel st s hk h hq hi hr
    cases h
    cases fuel with
    | zero => cases hk
    | succ fuel =>
      rw [runLoop]
      rw [if_neg (by simp [hq])]
      rw [stepRound_deadlock env mc _ hq hi hr]
  | succ k ih =>
    intro fuel st s hk h hq hi hr
    cases fuel with
    | zero => cases hk
    | succ fuel =>
      rw [stepN] at h
      by_cases hst : st.queue.isEmpty && st.inflight.isEmpty
      · rw [if_pos hst] at h
        have hqe : st.queue = [] := by
          simp only [Bool.and_eq_true, List.isEmpty_iff] at hst
          exact hst.1
        have hie : st.inflight = [] := by
          simp only [Bool.and_eq_true, List.isEmpty_iff] at hst
          exact hst.2
        rw [stepN_of_empty env mc k st hqe hie] at h
        cases h
        exact absurd hqe hq
      · rw [if_neg hst] at h
        cases hsr : stepRound env mc st with
        | error e => rw [hsr] at h; cases h
        | ok st1 =>
          rw [hsr] at h
          rw [runLoop, if_neg hst, hsr]
          exact ih fuel st1 s (Nat.lt_of_succ_lt_succ hk) h hq hi hr

/-- **C4, amended.** When the trace of `executeParallel`'s loop reaches, within
the loop's fuel, a state with a non-empty pending queue, no ready task and
nothing in flight, the run fails with the deadlock error
(`Circular dependency or blocked tasks detected`) — but the failure is a plain
throw: the `Except.error` carries no results, so the partial results collected
before the fault (visible in the trace state) are discarded, not surfaced. -/
theorem claim_C4_amended (env : ExecEnv) (tasks : List Task) (mc : Int)
    (n : Nat) (s : ExecState) (hn : n < 2 * tasks.length + 1)
    (h : stepN env mc n (initState tasks) = .ok s)
    (hq : s.queue ≠ []) (hi : s.inflight = []) (hr : readyTasks s = []) :
    executeParallel env tasks mc = .error .deadlock :=
  runLoop_deadlock_of_reach env mc n (2 * tasks.length + 1) (initState tasks) s
    hn h hq hi hr

/-- Tasks and environment of the C4 counterexample: `A` has no dependencies and
succeeds; `B` depends on an id that is not in the batch. -/
def c4TaskA : Task := { id := "A" }

/-- Second task of the C4 counterexample. -/
def c4TaskB : Task := { id := "B", dependencies := ["X"] }

/-- Environment: one registered codegen executor that always resolves
successfully, and a schedule that finishes everything in flight each round. -/
def c4Env : ExecEnv :=
  { registered := ["codegen"], outcome := fun _ => .resolved true,
    sched := fun l => l }

/-- The result `A`'s executor resolves with in the C4 counterexample. -/
def c4ResA : AgentResult :=
  { success := true, taskId := "A", agentName := "codegen", error := none }

/-- The loop state after the first round of the C4 counterexample. -/
def c4State1 : ExecState :=
  { queue := [c4TaskB], inflight := [], completed := ["A"], results := [c4ResA] }

/-- **C4, counterexample.** After the first round, `A`'s successful result has
been collected; the run then deadlocks, and the final value is the bare
deadlock error — the collected partial result (present in the trace) is not
surfaced with the failure. -/
theorem claim_C4_counterexample :
    executeParallel c4Env [c4TaskA, c4TaskB] 4 = .error .deadlock ∧
      stepN c4Env 4 1 (initState [c4TaskA, c4TaskB]) = .ok c4State1 ∧
      c4State1.results ≠ [] := by
  refine ⟨?_, ?_, ?_⟩ <;> decide

/-- Witness for `claim_C4_amended` at the concrete two-task batch, one round in. -/
theorem claim_C4_witness :
    ((1 < 2 * [c4TaskA, c4TaskB].length + 1) ∧
      stepN c4Env 4 1 (initState [c4TaskA, c4TaskB]) = .ok c4State1 ∧
      c4State1.queue ≠ [] ∧ c4State1.inflight = [] ∧ readyTasks c4State1 = []) ∧
    executeParallel c4Env [c4TaskA, c4TaskB] 4 = .error .deadlock :=
  ⟨by decide,
   claim_C4_amended c4Env [c4TaskA, c4TaskB] 4 1 c4State1 (by decide) (by decide)
     (by decide) (by decide) (by decide)⟩

/-! ## The executor loop invariant -/

/-- Ids of a task list. -/
def idsOf (l : List Task) : List String := l.map (·.id)

lemma mem_idsOf_of_mem {l : List Task} {u : Task} (h : u ∈ l) : u.id ∈ idsOf l :=
  List.mem_map_of_mem (·.id) h

lemma exists_of_mem_idsOf {l : List Task} {c : String} (h : c ∈ idsOf l) :
    ∃ u ∈ l, u.id = c := by
  rcases List.mem_map.mp h with ⟨u, hu, rfl⟩
  exact ⟨u, hu, rfl⟩

/-- Unique ids make `id` injective on the list's members. -/
lemma eq_of_id_eq {l : List Task} (hN : (idsOf l).Nodup) {a b : Task}
    (ha : a ∈ l) (hb : b ∈ l) (h : a.id = b.id) : a = b := by
  induction l with
  | nil => cases ha
  | cons v vs ih =>
    rcases List.nodup_cons.mp hN with ⟨hv, hvs⟩
    rcases List.mem_cons.mp ha with rfl | ha2
    · rcases List.mem_cons.mp hb with rfl | hb2
      · rfl
      · exact absurd (show a.id ∈ idsOf vs by rw [h]; exact mem_idsOf_of_mem hb2) hv
    · rcases List.mem_cons.mp hb with rfl | hb2
      · exact absurd (show b.id ∈ idsOf vs by rw [← h]; exact mem_idsOf_of_mem ha2) hv
      · exact ih hvs ha2 hb2

/-- An element not matching the predicate survives `eraseP`. -/
lemma mem_eraseP_of_pred_false {α : Type} {l : List α} {p : α → Bool} {a : α}
    (ha : a ∈ l) (hp : p a = false) : a ∈ l.eraseP p := by
  induction l with
  | nil => cases ha
  | cons v vs ih =>
    rw [List.eraseP_cons]
    rcases List.mem_cons.mp ha with rfl | ha
    · rw [hp]
      simp only [cond_false]
      exact List.mem_cons_self a _
    · cases hv : p v
      · simp only [cond_false]
        exact List.mem_cons_of_mem v (ih ha)
      · simp only [cond_true]
        exact ha

/-- With unique ids, erasing by one id leaves no element with that id. -/
lemma erase_id_removes {l : List Task} (hN : (idsOf l).Nodup) (i : String) :
    ∀ u ∈ l.eraseP (fun x => x.id == i), u.id ≠ i := by
  induction l with
  | nil => intro u hu; cases hu
  | cons v vs ih =>
    rcases List.nodup_cons.mp hN with ⟨hv, hvs⟩
    intro u hu
    rw [List.eraseP_cons] at hu
    cases hvi : (v.id == i)
    · rw [hvi] at hu
      simp only [cond_false] at hu
      rcases List.mem_cons.mp hu with rfl | hu
      · simpa using hvi
      · exact ih hvs u hu
    · rw [hvi] at hu
      simp only [cond_true] at hu
      intro hui
      have hvid : v.id = i := by simpa using hvi
      exact hv (show v.id ∈ idsOf vs by rw [hvid, ← hui]; exact mem_idsOf_of_mem hu)

/-- Readiness unfolded: in the queue and with all dependencies completed. -/
lemma mem_readyTasks_iff (s : ExecState) (t : Task) :
    t ∈ readyTasks s ↔ t ∈ s.queue ∧ ∀ d ∈ t.dependencies, d ∈ s.completed := by
  simp [readyTasks, List.mem_filter, List.all_eq_true]

/-- The completion bookkeeping for a task that has left both the queue and the
in-flight set: resolved tasks (successful or not) are in `completed` and have
their result recorded; rejected tasks and missing-role tasks have a synthetic
failed result and are never in `completed`. -/
def Finished (env : ExecEnv) (t : Task) (s : ExecState) : Prop :=
  if env.registered.contains (roleOf t) then
    match env.outcome t.id with
    | .resolved b => t.id ∈ s.completed ∧
        ∃ r ∈ s.results, r.taskId = t.id ∧ r.success = b
    | .thrown m => t.id ∉ s.completed ∧
        ∃ r ∈ s.results, r.taskId = t.id ∧ r.success = false ∧ r.error = some m
  else
    t.id ∉ s.completed ∧
      ∃ r ∈ s.results, r.taskId = t.id ∧ r.success = false ∧
        r.error = some ("Agent not found: " ++ roleOf t)

/-- `Finished` transfers to a state with the same membership of `t.id` in the
completed set and at least the same results. -/
lemma Finished.mono {env : ExecEnv} {t : Task} {s s' : ExecState}
    (h : Finished env t s)
    (hc : t.id ∈ s'.completed ↔ t.id ∈ s.completed)
    (hr : ∀ r ∈ s.results, r ∈ s'.results) : Finished env t s' := by
  unfold Finished at h ⊢
  cases hreg : env.registered.contains (roleOf t)
  · rw [hreg] at h
    simp only [Bool.false_eq_true, if_false] at h ⊢
    obtain ⟨h1, r, hrm, hr2⟩ := h
    exact ⟨fun hh => h1 (hc.mp hh), r, hr r hrm, hr2⟩
  · rw [hreg] at h
    simp only [if_true] at h ⊢
    cases ho : env.outcome t.id
    · rw [ho] at h
      obtain ⟨h1, r, hrm, hr2⟩ := h
      exact ⟨hc.mpr h1, r, hr r hrm, hr2⟩
    · rw [ho] at h
      obtain ⟨h1, r, hrm, hr2⟩ := h
      exact ⟨fun hh => h1 (hc.mp hh), r, hr r hrm, hr2⟩

/-- The executor loop's invariant, proved for every reachable state: the queue
is a sub-batch; in-flight tasks are batch tasks with registered roles, unique
ids, disjoint from the queue; every task that has left the queue had all its
dependencies completed; completed ids have recorded results and never came from
a rejecting executor; queued and in-flight tasks are not completed; and every
task that has left both queue and in-flight satisfies `Finished`. -/
structure EInv (tasks : List Task) (env : ExecEnv) (s : ExecState) : Prop where
  hq : s.queue.Sublist tasks
  hif : ∀ t ∈ s.inflight, t ∈ tasks
  hifN : (idsOf s.inflight).Nodup
  hdisj : ∀ t ∈ s.inflight, ∀ u ∈ s.queue, u.id ≠ t.id
  hreg : ∀ t ∈ s.inflight, env.registered.contains (roleOf t) = true
  hdep : ∀ t ∈ tasks, t.id ∉ idsOf s.queue → ∀ d ∈ t.dependencies, d ∈ s.completed
  hcr : ∀ c ∈ s.completed, ∃ r ∈ s.results, r.taskId = c
  hnthrow : ∀ c ∈ s.completed, ∀ m, env.outcome c ≠ .thrown m
  hqc : ∀ t ∈ s.queue, t.id ∉ s.completed
  hic : ∀ t ∈ s.inflight, t.id ∉ s.completed
  hfin : ∀ t ∈ tasks, t.id ∉ idsOf s.queue → t.id ∉ idsOf s.inflight →
    Finished env t s

/-- Queue ids are unique in every invariant state. -/
lemma EInv.hqN {tasks : List Task} {env : ExecEnv} {s : ExecState}
    (hN : (idsOf tasks).Nodup) (inv : EInv tasks env s) :
    (idsOf s.queue).Nodup := by
  have hsub : (idsOf s.queue).Sublist (idsOf tasks) := by
    unfold idsOf
    exact inv.hq.map (fun u => u.id)
  exact hN.sublist hsub

/-- The invariant holds at the initial state. -/
lemma einv_init (tasks : List Task) (env : ExecEnv) :
    EInv tasks env (initState tasks) := by
  refine ⟨List.Sublist.refl tasks, ?_, ?_, ?_, ?_, ?_, ?_, ?_, ?_, ?_, ?_⟩
  · intro t ht; cases ht
  · simp [idsOf, initState]
  · intro t ht; cases ht
  · intro t ht; cases ht
  · intro t ht hid
    exact absurd (mem_idsOf_of_mem ht) hid
  · intro c hc; cases hc
  · intro c hc; cases hc
  · intro t _ hc; cases hc
  · intro t ht; cases ht
  · intro t ht hid
    exact absurd (mem_idsOf_of_mem ht) hid

/-- Erasing a present id shortens the list by exactly one. -/
lemma length_eraseP_mem {l : List Task} {t : Task} (ht : t ∈ l) :
    (l.eraseP (fun x => x.id == t.id)).length + 1 = l.length := by
  induction l with
  | nil => cases ht
  | cons v vs ih =>
    rw [List.eraseP_cons]
    cases hv : (v.id == t.id)
    · simp only [cond_false, List.length_cons]
      have htvs : t ∈ vs := by
        rcases List.mem_cons.mp ht with rfl | h
        · simp at hv
        · exact h
      rw [← ih htvs]
    · simp [cond_true]

/-- Dispatching one ready task preserves the invariant; the completed set is
untouched, the queue just loses that task, and results only grow. -/
lemma dispatchOne_pres (tasks : List Task) (env : ExecEnv) (s : ExecState)
    (t : Task) (hN : (idsOf tasks).Nodup) (inv : EInv tasks env s)
    (ht : t ∈ readyTasks s) :
    EInv tasks env (dispatchOne env s t) ∧
    (dispatchOne env s t).completed = s.completed ∧
    (dispatchOne env s t).queue = s.queue.eraseP (fun x => x.id == t.id) ∧
    (∀ r ∈ s.results, r ∈ (dispatchOne env s t).results) ∧
    muExec (dispatchOne env s t) + 1 ≤ muExec s := by
  obtain ⟨htq, htc⟩ := (mem_readyTasks_iff s t).mp ht
  have hlen := length_eraseP_mem htq
  have hqN : (idsOf s.queue).Nodup := inv.hqN hN
  have httasks : t ∈ tasks := inv.hq.subset htq
  have hq'sub : (s.queue.eraseP (fun x => x.id == t.id)).Sublist s.queue :=
    List.eraseP_sublist _
  have hq' : (s.queue.eraseP (fun x => x.id == t.id)).Sublist tasks :=
    hq'sub.trans inv.hq
  have hq'mem : ∀ u ∈ s.queue.eraseP (fun x => x.id == t.id), u ∈ s.queue :=
    fun u hu => hq'sub.subset hu
  have hq'no : ∀ u ∈ s.queue.eraseP (fun x => x.id == t.id), u.id ≠ t.id :=
    erase_id_removes hqN t.id
  have hback : ∀ i : String, i ∈ idsOf s.queue → i ≠ t.id →
      i ∈ idsOf (s.queue.eraseP (fun x => x.id == t.id)) := by
    intro i hi hne
    rcases exists_of_mem_idsOf hi with ⟨w, hw, rfl⟩
    exact mem_idsOf_of_mem
      (mem_eraseP_of_pred_false hw (by simpa using hne))
  have hqid : ∀ t' ∈ tasks, t'.id ∉ idsOf (s.queue.eraseP (fun x => x.id == t.id)) →
      t'.id ∉ idsOf s.queue ∨ t' = t := by
    intro t' ht' hnot
    by_cases hin : t'.id ∈ idsOf s.queue
    · right
      by_cases he : t'.id = t.id
      · exact eq_of_id_eq hN ht' httasks he
      · exact absurd (hback t'.id hin he) hnot
    · exact Or.inl hin
  unfold dispatchOne
  dsimp only
  by_cases hreg : env.registered.contains (roleOf t) = true
  case pos =>
    rw [if_pos hreg]
    have htnotin : t.id ∉ idsOf s.inflight := by
      intro hmem
      rcases exists_of_mem_idsOf hmem with ⟨v, hv, hvid⟩
      exact inv.hdisj v hv t htq hvid.symm
    refine ⟨⟨hq', ?_, ?_, ?_, ?_, ?_, inv.hcr, inv.hnthrow, ?_, ?_, ?_⟩,
      rfl, rfl, fun r hr => hr, ?_⟩
    · intro u hu
      rcases List.mem_append.mp hu with hu | hu
      · exact inv.hif u hu
      · cases List.mem_singleton.mp hu
        exact httasks
    · simp only [idsOf, List.map_append]
      rw [List.nodup_append]
      refine ⟨inv.hifN, by simp, ?_⟩
      intro i hi
      simp only [List.map_cons, List.map_nil, List.mem_singleton]
      intro hit
      exact htnotin (hit ▸ hi)
    · intro v hv u hu
      rcases List.mem_append.mp hv with hv | hv
      · exact inv.hdisj v hv u (hq'mem u hu)
      · cases List.mem_singleton.mp hv
        exact hq'no u hu
    · intro v hv
      rcases List.mem_append.mp hv with hv | hv
      · exact inv.hreg v hv
      · cases List.mem_singleton.mp hv
        exact hreg
    · intro t' ht' hnot
      rcases hqid t' ht' hnot with hold | rfl
      · exact inv.hdep t' ht' hold
      · exact htc
    · intro u hu
      exact inv.hqc u (hq'mem u hu)
    · intro v hv
      rcases List.mem_append.mp hv with hv | hv
      · exact inv.hic v hv
      · cases List.mem_singleton.mp hv
        exact inv.hqc _ htq
    · intro t' ht' hnq hni
      have hni0 : t'.id ∉ idsOf s.inflight := by
        intro hmem
        exact hni (by simp only [idsOf, List.map_append]; exact List.mem_append.mpr (Or.inl hmem))
      have hne : t'.id ≠ t.id := by
        intro he
        exact hni (by simp [idsOf, he])
      have hnq0 : t'.id ∉ idsOf s.queue := by
        intro hin
        exact hnq (hback t'.id hin hne)
      exact inv.hfin t' ht' hnq0 hni0
    · unfold muExec
      dsimp only
      try simp only [List.length_append, List.length_cons, List.length_nil]
      omega
  case neg =>
    have hregf : env.registered.contains (roleOf t) = false := by
      simpa using hreg
    rw [if_neg hreg]
    refine ⟨⟨hq', inv.hif, inv.hifN, ?_, inv.hreg, ?_, ?_, inv.hnthrow, ?_, inv.hic, ?_⟩,
      rfl, rfl, fun r hr => List.mem_append.mpr (Or.inl hr), ?_⟩
    · intro v hv u hu
      exact inv.hdisj v hv u (hq'mem u hu)
    · intro t' ht' hnot
      rcases hqid t' ht' hnot with hold | rfl
      · exact inv.hdep t' ht' hold
      · exact htc
    · intro c hc
      rcases inv.hcr c hc with ⟨r, hr, hrid⟩
      exact ⟨r, List.mem_append.mpr (Or.inl hr), hrid⟩
    · intro u hu
      exact inv.hqc u (hq'mem u hu)
    · intro t' ht' hnq hni
      by_cases he : t'.id = t.id
      · have ht'eq : t' = t := eq_of_id_eq hN ht' httasks he
        subst ht'eq
        unfold Finished
        rw [if_neg (by simpa using hregf)]
        refine ⟨inv.hqc t' htq, ?_⟩
        exact ⟨_, List.mem_append.mpr (Or.inr (List.mem_singleton.mpr rfl)),
          rfl, rfl, rfl⟩
      · have hnq0 : t'.id ∉ idsOf s.queue := fun hin => hnq (hback t'.id hin he)
        exact (inv.hfin t' ht' hnq0 hni).mono (Iff.rfl)
          (fun r hr => List.mem_append.mpr (Or.inl hr))
    · unfold muExec
      dsimp only
      try simp only [List.length_append, List.length_cons, List.length_nil]
      omega

/-- Completing one in-flight task preserves the invariant; the queue is
untouched, the in-flight set just loses that task, and the completed set and
results only grow. -/
lemma completeOne_pres (tasks : List Task) (env : ExecEnv) (s : ExecState)
    (t : Task) (hN : (idsOf tasks).Nodup) (inv : EInv tasks env s)
    (ht : t ∈ s.inflight) :
    EInv tasks env (completeOne env s t) ∧
    (completeOne env s t).queue = s.queue ∧
    (completeOne env s t).inflight = s.inflight.eraseP (fun x => x.id == t.id) ∧
    (∀ c ∈ s.completed, c ∈ (completeOne env s t).completed) ∧
    (∀ r ∈ s.results, r ∈ (completeOne env s t).results) ∧
    muExec (completeOne env s t) + 1 ≤ muExec s := by
  have httasks : t ∈ tasks := inv.hif t ht
  have hilen := length_eraseP_mem ht
  have hi'sub : (s.inflight.eraseP (fun x => x.id == t.id)).Sublist s.inflight :=
    List.eraseP_sublist _
  have hi'mem : ∀ u ∈ s.inflight.eraseP (fun x => x.id == t.id), u ∈ s.inflight :=
    fun u hu => hi'sub.subset hu
  have hi'no : ∀ u ∈ s.inflight.eraseP (fun x => x.id == t.id), u.id ≠ t.id :=
    erase_id_removes inv.hifN t.id
  have hi'N : (idsOf (s.inflight.eraseP (fun x => x.id == t.id))).Nodup := by
    have hsub : (idsOf (s.inflight.eraseP (fun x => x.id == t.id))).Sublist
        (idsOf s.inflight) := by
      unfold idsOf
      exact hi'sub.map (fun u => u.id)
    exact inv.hifN.sublist hsub
  have hiback : ∀ i : String, i ∈ idsOf s.inflight → i ≠ t.id →
      i ∈ idsOf (s.inflight.eraseP (fun x => x.id == t.id)) := by
    intro i hi hne
    rcases exists_of_mem_idsOf hi with ⟨w, hw, rfl⟩
    exact mem_idsOf_of_mem (mem_eraseP_of_pred_false hw (by simpa using hne))
  have hqt : ∀ u ∈ s.queue, u.id ≠ t.id := fun u hu => inv.hdisj t ht u hu
  unfold completeOne
  cases ho : env.outcome t.id with
  | resolved b =>
    refine ⟨⟨inv.hq, ?_, hi'N, ?_, ?_, ?_, ?_, ?_, ?_, ?_, ?_⟩, rfl, rfl,
      fun c hc => List.mem_append.mpr (Or.inl hc),
      fun r hr => List.mem_append.mpr (Or.inl hr), ?_⟩
    · intro u hu
      exact inv.hif u (hi'mem u hu)
    · intro v hv u hu
      exact inv.hdisj v (hi'mem v hv) u hu
    · intro v hv
      exact inv.hreg v (hi'mem v hv)
    · intro t' ht' hnot
      intro d hd
      exact List.mem_append.mpr (Or.inl (inv.hdep t' ht' hnot d hd))
    · intro c hc
      rcases List.mem_append.mp hc with hc | hc
      · rcases inv.hcr c hc with ⟨r, hr, hrid⟩
        exact ⟨r, List.mem_append.mpr (Or.inl hr), hrid⟩
      · cases List.mem_singleton.mp hc
        exact ⟨_, List.mem_append.mpr (Or.inr (List.mem_singleton.mpr rfl)), rfl⟩
    · intro c hc m
      rcases List.mem_append.mp hc with hc | hc
      · exact inv.hnthrow c hc m
      · cases List.mem_singleton.mp hc
        rw [ho]
        intro hcon
        cases hcon
    · intro u hu hmem
      rcases List.mem_append.mp hmem with hmem | hmem
      · exact inv.hqc u hu hmem
      · exact hqt u hu (List.mem_singleton.mp hmem)
    · intro v hv hmem
      rcases List.mem_append.mp hmem with hmem | hmem
      · exact inv.hic v (hi'mem v hv) hmem
      · exact hi'no v hv (List.mem_singleton.mp hmem)
    · intro t' ht' hnq hni
      by_cases he : t'.id = t.id
      · have ht'eq : t' = t := eq_of_id_eq hN ht' httasks he
        subst ht'eq
        unfold Finished
        rw [if_pos (inv.hreg t' ht), ho]
        refine ⟨List.mem_append.mpr (Or.inr (List.mem_singleton.mpr rfl)), ?_⟩
        exact ⟨_, List.mem_append.mpr (Or.inr (List.mem_singleton.mpr rfl)), rfl, rfl⟩
      · have hni0 : t'.id ∉ idsOf s.inflight := fun hin => hni (hiback t'.id hin he)
        refine (inv.hfin t' ht' hnq hni0).mono ?_
          (fun r hr => List.mem_append.mpr (Or.inl hr))
        constructor
        · intro hmem
          rcases List.mem_append.mp hmem with hmem | hmem
          · exact hmem
          · exact absurd (List.mem_singleton.mp hmem) he
        · intro hmem
          exact List.mem_append.mpr (Or.inl hmem)
    · unfold muExec
      dsimp only
      try simp only [List.length_append, List.length_cons, List.length_nil]
      omega
  | thrown m =>
    refine ⟨⟨inv.hq, ?_, hi'N, ?_, ?_, ?_, ?_, inv.hnthrow, inv.hqc, ?_, ?_⟩,
      rfl, rfl, fun c hc => hc, fun r hr => List.mem_append.mpr (Or.inl hr), ?_⟩
    · intro u hu
      exact inv.hif u (hi'mem u hu)
    · intro v hv u hu
      exact inv.hdisj v (hi'mem v hv) u hu
    · intro v hv
      exact inv.hreg v (hi'mem v hv)
    · exact inv.hdep
    · intro c hc
      rcases inv.hcr c hc with ⟨r, hr, hrid⟩
      exact ⟨r, List.mem_append.mpr (Or.inl hr), hrid⟩
    · intro v hv
      exact inv.hic v (hi'mem v hv)
    · intro t' ht' hnq hni
      by_cases he : t'.id = t.id
      · have ht'eq : t' = t := eq_of_id_eq hN ht' httasks he
        subst ht'eq
        unfold Finished
        rw [if_pos (inv.hreg t' ht), ho]
        refine ⟨inv.hic t' ht, ?_⟩
        exact ⟨_, List.mem_append.mpr (Or.inr (List.mem_singleton.mpr rfl)), rfl, rfl, rfl⟩
      · have hni0 : t'.id ∉ idsOf s.inflight := fun hin => hni (hiback t'.id hin he)
        exact (inv.hfin t' ht' hnq hni0).mono Iff.rfl
          (fun r hr => List.mem_append.mpr (Or.inl hr))
    · unfold muExec
      dsimp only
      try simp only [List.length_append, List.length_cons, List.length_nil]
      omega

/-- Folding dispatch over pairwise-distinct ready tasks: invariant preserved,
completed set unchanged, results grow, measure drops by the number dispatched. -/
lemma dispatchFold_pres (tasks : List Task) (env : ExecEnv)
    (hN : (idsOf tasks).Nodup) :
    ∀ (l : List Task) (s : ExecState), EInv tasks env s →
      (∀ u ∈ l, u ∈ readyTasks s) → (idsOf l).Nodup →
      EInv tasks env (l.foldl (dispatchOne env) s) ∧
      (l.foldl (dispatchOne env) s).completed = s.completed ∧
      (∀ r ∈ s.results, r ∈ (l.foldl (dispatchOne env) s).results) ∧
      muExec (l.foldl (dispatchOne env) s) + l.length ≤ muExec s := by
  intro l
  induction l with
  | nil =>
    intro s inv _ _
    exact ⟨inv, rfl, fun r hr => hr, by simp⟩
  | cons t ts ih =>
    intro s inv hready hnd
    have ht : t ∈ readyTasks s := hready t (List.mem_cons_self t ts)
    obtain ⟨inv1, hc1, hq1, hr1, hmu1⟩ := dispatchOne_pres tasks env s t hN inv ht
    rcases List.nodup_cons.mp hnd with ⟨hhd, htl⟩
    have hready2 : ∀ u ∈ ts, u ∈ readyTasks (dispatchOne env s t) := by
      intro u hu
      obtain ⟨huq, hud⟩ := (mem_readyTasks_iff s u).mp (hready u (List.mem_cons_of_mem t hu))
      refine (mem_readyTasks_iff _ u).mpr ⟨?_, ?_⟩
      · rw [hq1]
        have hne : u.id ≠ t.id := by
          intro he
          exact hhd (show t.id ∈ idsOf ts by rw [← he]; exact mem_idsOf_of_mem hu)
        exact mem_eraseP_of_pred_false huq (by simpa using hne)
      · rw [hc1]
        exact hud
    obtain ⟨inv2, hc2, hr2, hmu2⟩ := ih (dispatchOne env s t) inv1 hready2 htl
    simp only [List.foldl_cons, List.length_cons]
    exact ⟨inv2, by rw [hc2, hc1], fun r hr => hr2 r (hr1 r hr), by omega⟩

/-- Folding completion over pairwise-distinct in-flight tasks: invariant
preserved, completed set and results grow, measure drops accordingly. -/
lemma completeFold_pres (tasks : List Task) (env : ExecEnv)
    (hN : (idsOf tasks).Nodup) :
    ∀ (l : List Task) (s : ExecState), EInv tasks env s →
      (∀ u ∈ l, u ∈ s.inflight) → (idsOf l).Nodup →
      EInv tasks env (l.foldl (completeOne env) s) ∧
      (l.foldl (completeOne env) s).queue = s.queue ∧
      (∀ c ∈ s.completed, c ∈ (l.foldl (completeOne env) s).completed) ∧
      (∀ r ∈ s.results, r ∈ (l.foldl (completeOne env) s).results) ∧
      muExec (l.foldl (completeOne env) s) + l.length ≤ muExec s := by
  intro l
  induction l with
  | nil =>
    intro s inv _ _
    exact ⟨inv, rfl, fun c hc => hc, fun r hr => hr, by simp⟩
  | cons t ts ih =>
    intro s inv hmem hnd
    have ht : t ∈ s.inflight := hmem t (List.mem_cons_self t ts)
    obtain ⟨inv1, hq1, hi1, hc1, hr1, hmu1⟩ := completeOne_pres tasks env s t hN inv ht
    rcases List.nodup_cons.mp hnd with ⟨hhd, htl⟩
    have hmem2 : ∀ u ∈ ts, u ∈ (completeOne env s t).inflight := by
      intro u hu
      rw [hi1]
      have hne : u.id ≠ t.id := by
        intro he
        exact hhd (show t.id ∈ idsOf ts by rw [← he]; exact mem_idsOf_of_mem hu)
      exact mem_eraseP_of_pred_false (hmem u (List.mem_cons_of_mem t hu))
        (by simpa using hne)
    obtain ⟨inv2, hq2, hc2, hr2, hmu2⟩ := ih (completeOne env s t) inv1 hmem2 htl
    simp only [List.foldl_cons, List.length_cons]
    exact ⟨inv2, by rw [hq2, hq1], fun c hc => hc2 c (hc1 c hc),
      fun r hr => hr2 r (hr1 r hr), by omega⟩

/-- The slice dispatched in a round is made of ready tasks with distinct ids. -/
lemma toExec_facts (s : ExecState) (mc : Int) (hqN : (idsOf s.queue).Nodup) :
    (∀ u ∈ jsSliceTo (mc - s.inflight.length) (readyTasks s), u ∈ readyTasks s) ∧
    (idsOf (jsSliceTo (mc - s.inflight.length) (readyTasks s))).Nodup := by
  have hsub : (jsSliceTo (mc - s.inflight.length) (readyTasks s)).Sublist (readyTasks s) := by
    unfold jsSliceTo
    split <;> exact List.take_sublist _ _
  have hrsub : (readyTasks s).Sublist s.queue := List.filter_sublist _
  constructor
  · exact fun u hu => hsub.subset hu
  · have h1 : (idsOf (jsSliceTo (mc - s.inflight.length) (readyTasks s))).Sublist
        (idsOf s.queue) := by
      unfold idsOf
      exact (hsub.trans hrsub).map (fun u => u.id)
    exact hqN.sublist h1

/-- `stepRound`'s only error is the deadlock error. -/
lemma stepRound_error_eq (env : ExecEnv) (mc : Int) (s : ExecState) (e : ExecErr)
    (h : stepRound env mc s = .error e) : e = .deadlock := by
  unfold stepRound at h
  dsimp only at h
  by_cases h1 : ((jsSliceTo (mc - s.inflight.length) (readyTasks s)).isEmpty &&
      s.inflight.isEmpty) = true
  · rw [if_pos h1] at h
    by_cases h2 : s.queue.isEmpty = true
    · rw [if_pos h2] at h
      cases h
    · rw [if_neg h2] at h
      cases h
      rfl
  · rw [if_neg h1] at h
    cases h

/-- One loop round preserves the invariant. -/
lemma stepRound_pres (tasks : List Task) (env : ExecEnv) (mc : Int)
    (hN : (idsOf tasks).Nodup) (s s' : ExecState) (inv : EInv tasks env s)
    (h : stepRound env mc s = .ok s') : EInv tasks env s' := by
  unfold stepRound at h
  dsimp only at h
  by_cases h1 : ((jsSliceTo (mc - s.inflight.length) (readyTasks s)).isEmpty &&
      s.inflight.isEmpty) = true
  · rw [if_pos h1] at h
    by_cases h2 : s.queue.isEmpty = true
    · rw [if_pos h2] at h
      cases h
      exact inv
    · rw [if_neg h2] at h
      cases h
  · rw [if_neg h1] at h
    obtain ⟨hready, hnd⟩ := toExec_facts s mc (inv.hqN hN)
    obtain ⟨inv1, _, _, _⟩ := dispatchFold_pres tasks env hN _ s inv hready hnd
    set s1 := (jsSliceTo (mc - s.inflight.length) (readyTasks s)).foldl
      (dispatchOne env) s with hs1
    have hfinmem : ∀ u ∈ s1.inflight.filter
        (fun t => (env.sched (s1.inflight.map (·.id))).contains t.id), u ∈ s1.inflight :=
      fun u hu => (List.mem_filter.mp hu).1
    have hfinnd : (idsOf (s1.inflight.filter
        (fun t => (env.sched (s1.inflight.map (·.id))).contains t.id))).Nodup := by
      have hsub : (idsOf (s1.inflight.filter
          (fun t => (env.sched (s1.inflight.map (·.id))).contains t.id))).Sublist
          (idsOf s1.inflight) := by
        unfold idsOf
        exact List.Sublist.map (fun u : Task => u.id) (List.filter_sublist _)
      exact inv1.hifN.sublist hsub
    obtain ⟨inv2, _, _, _, _⟩ := completeFold_pres tasks env hN _ s1 inv1 hfinmem hfinnd
    cases h
    exact inv2

/-- Every reachable state of the loop trace satisfies the invariant. -/
lemma stepN_pres (tasks : List Task) (env : ExecEnv) (mc : Int)
    (hN : (idsOf tasks).Nodup) :
    ∀ (n : Nat) (s s' : ExecState), EInv tasks env s →
      stepN env mc n s = .ok s' → EInv tasks env s' := by
  intro n
  induction n with
  | zero =>
    intro s s' inv h
    cases h
    exact inv
  | succ n ih =>
    intro s s' inv h
    rw [stepN] at h
    by_cases hst : s.queue.isEmpty && s.inflight.isEmpty
    · rw [if_pos hst] at h
      exact ih s s' inv h
    · rw [if_neg hst] at h
      cases hsr : stepRound env mc s with
      | error e => rw [hsr] at h; cases h
      | ok s1 =>
        rw [hsr] at h
        exact ih s1 s' (stepRound_pres tasks env mc hN s s1 inv hsr) h

/-! ## Capacity and termination of the loop -/

lemma jsSliceTo_length_le {α : Type} (e : Int) (l : List α) (he : 0 ≤ e) :
    ((jsSliceTo e l).length : Int) ≤ e := by
  unfold jsSliceTo
  rw [if_neg (not_lt.mpr he)]
  have h1 : (l.take e.toNat).length ≤ e.toNat :=
    List.length_take_le e.toNat l
  have h2 : (e.toNat : Int) = e := Int.toNat_of_nonneg he
  omega

lemma dispatchOne_inflight_len (env : ExecEnv) (s : ExecState) (t : Task) :
    (dispatchOne env s t).inflight.length ≤ s.inflight.length + 1 := by
  unfold dispatchOne
  dsimp only
  by_cases hreg : env.registered.contains (roleOf t) = true
  · rw [if_pos hreg]
    simp
  · rw [if_neg hreg]
    simp

lemma dispatchFold_inflight_len (env : ExecEnv) :
    ∀ (l : List Task) (s : ExecState),
      (l.foldl (dispatchOne env) s).inflight.length ≤ s.inflight.length + l.length := by
  intro l
  induction l with
  | nil => intro s; simp
  | cons t ts ih =>
    intro s
    simp only [List.foldl_cons, List.length_cons]
    have h1 := ih (dispatchOne env s t)
    have h2 := dispatchOne_inflight_len env s t
    omega

lemma completeOne_inflight_len (env : ExecEnv) (s : ExecState) (t : Task) :
    (completeOne env s t).inflight.length ≤ s.inflight.length := by
  unfold completeOne
  dsimp only
  have h1 : (s.inflight.eraseP (fun u => u.id == t.id)).length ≤ s.inflight.length :=
    (List.eraseP_sublist _).length_le
  cases ho : env.outcome t.id <;> simp [ho]
  all_goals exact h1

lemma completeFold_inflight_len (env : ExecEnv) :
    ∀ (l : List Task) (s : ExecState),
      (l.foldl (completeOne env) s).inflight.length ≤ s.inflight.length := by
  intro l
  induction l with
  | nil => intro s; simp
  | cons t ts ih =>
    intro s
    simp only [List.foldl_cons]
    exact le_trans (ih (completeOne env s t)) (completeOne_inflight_len env s t)

/-- One round keeps the in-flight count within the concurrency ceiling. -/
lemma stepRound_cap (env : ExecEnv) (mc : Int) (s s' : ExecState)
    (hcap : (s.inflight.length : Int) ≤ mc)
    (h : stepRound env mc s = .ok s') : (s'.inflight.length : Int) ≤ mc := by
  unfold stepRound at h
  dsimp only at h
  by_cases h1 : ((jsSliceTo (mc - s.inflight.length) (readyTasks s)).isEmpty &&
      s.inflight.isEmpty) = true
  · rw [if_pos h1] at h
    by_cases h2 : s.queue.isEmpty = true
    · rw [if_pos h2] at h
      cases h
      exact hcap
    · rw [if_neg h2] at h
      cases h
  · rw [if_neg h1] at h
    cases h
    have he : (0 : Int) ≤ mc - s.inflight.length := by omega
    have hslice := jsSliceTo_length_le (mc - s.inflight.length) (readyTasks s) he
    have hd := dispatchFold_inflight_len env
      (jsSliceTo (mc - s.inflight.length) (readyTasks s)) s
    have hc := completeFold_inflight_len env
      (((jsSliceTo (mc - s.inflight.length) (readyTasks s)).foldl
        (dispatchOne env) s).inflight.filter
          (fun t => (env.sched (((jsSliceTo (mc - s.inflight.length) (readyTasks s)).foldl
            (dispatchOne env) s).inflight.map (·.id))).contains t.id))
      ((jsSliceTo (mc - s.inflight.length) (readyTasks s)).foldl (dispatchOne env) s)
    omega

/-- Nothing happening in a round is impossible under a progressive schedule:
each continuing round strictly decreases the measure. -/
lemma stepRound_progress (tasks : List Task) (env : ExecEnv) (mc : Int)
    (hN : (idsOf tasks).Nodup) (hP : Progressive env.sched)
    (s s' : ExecState) (inv : EInv tasks env s)
    (hne : ¬(s.queue.isEmpty && s.inflight.isEmpty) = true)
    (h : stepRound env mc s = .ok s') : muExec s' < muExec s := by
  unfold stepRound at h
  dsimp only at h
  by_cases h1 : ((jsSliceTo (mc - s.inflight.length) (readyTasks s)).isEmpty &&
      s.inflight.isEmpty) = true
  · rw [if_pos h1] at h
    by_cases h2 : s.queue.isEmpty = true
    · exact absurd (by simp only [Bool.and_eq_true] at h1 ⊢; exact ⟨h2, h1.2⟩) hne
    · rw [if_neg h2] at h
      cases h
  · rw [if_neg h1] at h
    obtain ⟨hready, hnd⟩ := toExec_facts s mc (inv.hqN hN)
    obtain ⟨inv1, _, _, hmu1⟩ := dispatchFold_pres tasks env hN _ s inv hready hnd
    set s1 := (jsSliceTo (mc - s.inflight.length) (readyTasks s)).foldl
      (dispatchOne env) s with hs1
    have hfinmem : ∀ u ∈ s1.inflight.filter
        (fun t => (env.sched (s1.inflight.map (·.id))).contains t.id), u ∈ s1.inflight :=
      fun u hu => (List.mem_filter.mp hu).1
    have hfinnd : (idsOf (s1.inflight.filter
        (fun t => (env.sched (s1.inflight.map (·.id))).contains t.id))).Nodup := by
      have hsub : (idsOf (s1.inflight.filter
          (fun t => (env.sched (s1.inflight.map (·.id))).contains t.id))).Sublist
          (idsOf s1.inflight) := by
        unfold idsOf
        exact List.Sublist.map (fun u : Task => u.id) (List.filter_sublist _)
      exact inv1.hifN.sublist hsub
    obtain ⟨_, _, _, _, hmu2⟩ := completeFold_pres tasks env hN _ s1 inv1 hfinmem hfinnd
    cases h
    by_cases hte : (jsSliceTo (mc - s.inflight.length) (readyTasks s)).isEmpty = true
    · have hie : s.inflight.isEmpty = false := by
        cases hie : s.inflight.isEmpty
        · rfl
        · exact absurd (by simp [hte, hie]) h1
      have hinen : s.inflight ≠ [] := by
        intro hcon
        rw [hcon] at hie
        simp at hie
      have hs1s : s1 = s := by
        rw [hs1, List.isEmpty_iff.mp hte]
        rfl
      have hidsne : s1.inflight.map (fun x => x.id) ≠ [] := by
        rw [hs1s]
        simpa using hinen
      rcases hP (s1.inflight.map (fun x => x.id)) hidsne with ⟨i, hi, hisched⟩
      rcases List.mem_map.mp hi with ⟨u, hu, rfl⟩
      have hufin : u ∈ s1.inflight.filter
          (fun t => (env.sched (s1.inflight.map (·.id))).contains t.id) := by
        rw [List.mem_filter]
        exact ⟨hu, by simpa using hisched⟩
      have hfinne : s1.inflight.filter
          (fun t => (env.sched (s1.inflight.map (·.id))).contains t.id) ≠ [] := by
        intro hcon
        rw [hcon] at hufin
        cases hufin
      have hlenpos : 0 < (s1.inflight.filter
          (fun t => (env.sched (s1.inflight.map (·.id))).contains t.id)).length :=
        List.length_pos.mpr hfinne
      have hmus : muExec s1 = muExec s := by rw [hs1s]
      omega
    · have hlenpos : 0 < (jsSliceTo (mc - s.inflight.length) (readyTasks s)).length := by
        cases hl : jsSliceTo (mc - s.inflight.length) (readyTasks s) with
        | nil => rw [hl] at hte; simp at hte
        | cons a as => simp [hl]
      omega

/-- Under a progressive schedule the loop never exhausts its fuel once the fuel
exceeds the measure. -/
lemma runLoop_no_fuelOut (tasks : List Task) (env : ExecEnv) (mc : Int)
    (hN : (idsOf tasks).Nodup) (hP : Progressive env.sched) :
    ∀ (fuel : Nat) (s : ExecState), EInv tasks env s → muExec s < fuel →
      runLoop env mc fuel s ≠ .error .fuelOut := by
  intro fuel
  induction fuel with
  | zero =>
    intro s _ hmu
    cases hmu
  | succ fuel ih =>
    intro s inv hmu h
    rw [runLoop] at h
    by_cases hst : s.queue.isEmpty && s.inflight.isEmpty
    · rw [if_pos hst] at h
      cases h
    · rw [if_neg hst] at h
      cases hsr : stepRound env mc s with
      | error e =>
        rw [hsr] at h
        cases h
        cases stepRound_error_eq env mc s _ hsr
      | ok s1 =>
        rw [hsr] at h
        have hmu1 := stepRound_progress tasks env mc hN hP s s1 inv hst hsr
        exact ih s1 (stepRound_pres tasks env mc hN s s1 inv hsr) (by omega) h

/-- A loop run that returns normally reached a state with empty queue and
nothing in flight. -/
lemma runLoop_ok_reaches (env : ExecEnv) (mc : Int) :
    ∀ (fuel : Nat) (st : ExecState) (res : List AgentResult),
      runLoop env mc fuel st = .ok res →
      ∃ k s, stepN env mc k st = .ok s ∧ s.queue = [] ∧ s.inflight = [] := by
  intro fuel
  induction fuel with
  | zero =>
    intro st res h
    cases h
  | succ fuel ih =>
    intro st res h
    rw [runLoop] at h
    by_cases hst : st.queue.isEmpty && st.inflight.isEmpty
    · refine ⟨0, st, rfl, ?_, ?_⟩
      · simp only [Bool.and_eq_true, List.isEmpty_iff] at hst
        exact hst.1
      · simp only [Bool.and_eq_true, List.isEmpty_iff] at hst
        exact hst.2
    · rw [if_neg hst] at h
      cases hsr : stepRound env mc st with
      | error e => rw [hsr] at h; cases h
      | ok s1 =>
        rw [hsr] at h
        rcases ih s1 res h with ⟨k, s, hs, hq, hi⟩
        refine ⟨k + 1, s, ?_, hq, hi⟩
        rw [stepN, if_neg hst, hsr]
        exact hs

/-! ## C6, C7, C5, C10: claim theorems on the executor -/

/-- **C6.** A pending task is ready exactly when every one of its declared
dependencies is in the completed set; a task that resolved counts as completed
whether its result was successful or not; and consequently, for every
dependency edge A→B and every concurrency ceiling and schedule, once B has been
dispatched (left the queue) in any reachable state, A is completed and A's
Execution Result is recorded. -/
theorem claim_C6 (env : ExecEnv) (tasks : List Task) (mc : Int)
    (hN : (idsOf tasks).Nodup) :
    (∀ (s : ExecState) (B : Task),
      B ∈ readyTasks s ↔ B ∈ s.queue ∧ ∀ d ∈ B.dependencies, d ∈ s.completed) ∧
    (∀ (u : Task) (b : Bool), u ∈ tasks →
      env.registered.contains (roleOf u) = true → env.outcome u.id = .resolved b →
      ∀ (n : Nat) (s : ExecState), stepN env mc n (initState tasks) = .ok s →
      u.id ∉ idsOf s.queue → u.id ∉ idsOf s.inflight → u.id ∈ s.completed) ∧
    (∀ (B : Task) (aId : String), B ∈ tasks → aId ∈ B.dependencies →
      ∀ (n : Nat) (s : ExecState), stepN env mc n (initState tasks) = .ok s →
      B.id ∉ idsOf s.queue →
      aId ∈ s.completed ∧ ∃ r ∈ s.results, r.taskId = aId) := by
  refine ⟨mem_readyTasks_iff, ?_, ?_⟩
  · intro u b hu hreg ho n s h hq hi
    have inv := stepN_pres tasks env mc hN n _ s (einv_init tasks env) h
    have hfin := inv.hfin u hu hq hi
    unfold Finished at hfin
    rw [if_pos hreg, ho] at hfin
    exact hfin.1
  · intro B aId hB haId n s h hq
    have inv := stepN_pres tasks env mc hN n _ s (einv_init tasks env) h
    have hc := inv.hdep B hB hq aId haId
    exact ⟨hc, inv.hcr aId hc⟩

/-- Tasks of the executor witnesses: `A` independent, `B` depending on `A`. -/
def c6TaskA : Task := { id := "A" }

/-- The dependent task of the C6 witness. -/
def c6TaskB : Task := { id := "B", dependencies := ["A"] }

/-- Environment of the C6 witness: everything resolves, everything scheduled. -/
def c6Env : ExecEnv :=
  { registered := ["codegen"], outcome := fun _ => .resolved true,
    sched := fun l => l }

/-- The state after two rounds: `B` has been dispatched and completed, after
`A`'s result was recorded. -/
def c6State2 : ExecState :=
  { queue := [], inflight := [],
    completed := ["A", "B"],
    results := [{ success := true, taskId := "A", agentName := "codegen", error := none },
                { success := true, taskId := "B", agentName := "codegen", error := none }] }

/-- Witness for `claim_C6` on the edge A→B after two rounds. -/
theorem claim_C6_witness :
    ((idsOf [c6TaskA, c6TaskB]).Nodup ∧ c6TaskB ∈ [c6TaskA, c6TaskB] ∧
      "A" ∈ c6TaskB.dependencies ∧
      stepN c6Env 4 2 (initState [c6TaskA, c6TaskB]) = .ok c6State2 ∧
      c6TaskB.id ∉ idsOf c6State2.queue) ∧
    ("A" ∈ c6State2.completed ∧ ∃ r ∈ c6State2.results, r.taskId = "A") :=
  ⟨by decide,
   (claim_C6 c6Env [c6TaskA, c6TaskB] 4 (by decide)).2.2 c6TaskB "A" (by decide)
     (by decide) 2 c6State2 (by decide) (by decide)⟩

/-- **C7.** With a positive concurrency ceiling, the number of in-flight tasks
never exceeds `maxConcurrency` in any reachable state of the loop, for every
schedule; and each round dispatches at most `maxConcurrency - |inflight|` new
tasks. -/
theorem claim_C7 (env : ExecEnv) (tasks : List Task) (mc : Int) (hmc : 0 < mc) :
    (∀ (n : Nat) (s : ExecState), stepN env mc n (initState tasks) = .ok s →
      (s.inflight.length : Int) ≤ mc) ∧
    (∀ s : ExecState, (s.inflight.length : Int) ≤ mc →
      ((jsSliceTo (mc - s.inflight.length) (readyTasks s)).length : Int) ≤
        mc - s.inflight.length) := by
  constructor
  · have main : ∀ (n : Nat) (s s' : ExecState), (s.inflight.length : Int) ≤ mc →
        stepN env mc n s = .ok s' → (s'.inflight.length : Int) ≤ mc := by
      intro n
      induction n with
      | zero =>
        intro s s' hcap h
        cases h
        exact hcap
      | succ n ih =>
        intro s s' hcap h
        rw [stepN] at h
        by_cases hst : s.queue.isEmpty && s.inflight.isEmpty
        · rw [if_pos hst] at h
          exact ih s s' hcap h
        · rw [if_neg hst] at h
          cases hsr : stepRound env mc s with
          | error e => rw [hsr] at h; cases h
          | ok s1 =>
            rw [hsr] at h
            exact ih s1 s' (stepRound_cap env mc s s1 hcap hsr) h
    intro n s h
    exact main n (initState tasks) s (by simp [initState]; omega) h
  · intro s hcap
    exact jsSliceTo_length_le _ _ (by omega)

/-- Three independent tasks of the C7 witness. -/
def c7Tasks : List Task := [{ id := "A" }, { id := "B" }, { id := "C" }]

/-- Environment of the C7 witness: nothing ever finishes, so in-flight work
accumulates up to the ceiling. -/
def c7Env : ExecEnv :=
  { registered := ["codegen"], outcome := fun _ => .resolved true,
    sched := fun _ => [] }

/-- The state after one round with ceiling 2: exactly two tasks in flight. -/
def c7State1 : ExecState :=
  { queue := [{ id := "C" }], inflight := [{ id := "A" }, { id := "B" }],
    completed := [], results := [] }

/-- Witness for `claim_C7`: ceiling 2, three independent tasks, the reachable
state after one round holds exactly 2 in-flight tasks, within the bound. -/
theorem claim_C7_witness :
    ((0 : Int) < 2 ∧ stepN c7Env 2 1 (initState c7Tasks) = .ok c7State1 ∧
      c7State1.inflight.length = 2) ∧
    (c7State1.inflight.length : Int) ≤ 2 :=
  ⟨by decide,
   (claim_C7 c7Env c7Tasks 2 (by decide)).1 1 c7State1 (by decide)⟩

/-- **C5, amended.** A task whose assigned role has no registered executor is
never batch-fatal: it never enters the in-flight set, is never marked
completed, and once it has been dispatched (left the queue) it has a synthetic
failed result recording `Agent not found: <role>`; dispatch of the remaining
tasks continues (see the counterexample, where another task is dispatched
after the fault and the whole run returns normally with the collected
results). -/
theorem claim_C5_amended (env : ExecEnv) (tasks : List Task) (mc : Int)
    (hN : (idsOf tasks).Nodup) (t : Task) (ht : t ∈ tasks)
    (hrole : env.registered.contains (roleOf t) = false) :
    ∀ (n : Nat) (s : ExecState), stepN env mc n (initState tasks) = .ok s →
      t.id ∉ idsOf s.inflight ∧ t.id ∉ s.completed ∧
      (t.id ∉ idsOf s.queue →
        ∃ r ∈ s.results, r.taskId = t.id ∧ r.success = false ∧
          r.error = some ("Agent not found: " ++ roleOf t)) := by
  intro n s h
  have inv := stepN_pres tasks env mc hN n _ s (einv_init tasks env) h
  have hni : t.id ∉ idsOf s.inflight := by
    intro hmem
    rcases exists_of_mem_idsOf hmem with ⟨u, hu, huid⟩
    have hueq : u = t := eq_of_id_eq hN (inv.hif u hu) ht huid
    have hru := inv.hreg u hu
    rw [hueq, hrole] at hru
    cases hru
  refine ⟨hni, ?_, ?_⟩
  · by_cases hq : t.id ∈ idsOf s.queue
    · rcases exists_of_mem_idsOf hq with ⟨u, hu, huid⟩
      intro hc
      apply inv.hqc u hu
      rw [huid]
      exact hc
    · have hfin := inv.hfin t ht hq hni
      unfold Finished at hfin
      rw [if_neg (by simpa using hrole)] at hfin
      exact hfin.1
  · intro hq
    have hfin := inv.hfin t ht hq hni
    unfold Finished at hfin
    rw [if_neg (by simpa using hrole)] at hfin
    exact hfin.2

/-- The missing-role task of the C5 counterexample. -/
def c5TaskA : Task := { id := "A", assignedAgent := some "x" }

/-- The other, well-registered task of the C5 counterexample. -/
def c5TaskB : Task := { id := "B" }

/-- Environment of the C5 counterexample: only `codegen` is registered. -/
def c5Env : ExecEnv :=
  { registered := ["codegen"], outcome := fun _ => .resolved true,
    sched := fun l => l }

/-- Synthetic failure recorded for the missing-role task. -/
def c5ResA : AgentResult :=
  { success := false, taskId := "A", agentName := "x",
    error := some "Agent not found: x" }

/-- Result of the task dispatched after the fault. -/
def c5ResB : AgentResult :=
  { success := true, taskId := "B", agentName := "codegen", error := none }

/-- State after round one: the fault is recorded, `B` is still pending. -/
def c5State1 : ExecState :=
  { queue := [c5TaskB], inflight := [], completed := [], results := [c5ResA] }

/-- Final state of the C5 counterexample run. -/
def c5StateF : ExecState :=
  { queue := [], inflight := [], completed := ["B"], results := [c5ResA, c5ResB] }

/-- **C5, counterexample.** With concurrency 1, the missing-role task `A`
faults in round one (synthetic result recorded, `B` still pending), yet `B` is
dispatched afterwards and the whole run returns `.ok` with both results: the
missing role is neither a `MissingRoleError` nor batch-fatal, and remaining
dispatch is not aborted. -/
theorem claim_C5_counterexample :
    executeParallel c5Env [c5TaskA, c5TaskB] 1 = .ok [c5ResA, c5ResB] ∧
      stepN c5Env 1 1 (initState [c5TaskA, c5TaskB]) = .ok c5State1 ∧
      c5State1.results = [c5ResA] ∧ c5TaskB ∈ c5State1.queue ∧
      c5ResB.success = true := by
  refine ⟨?_, ?_, ?_, ?_, ?_⟩ <;> decide

/-- Witness for `claim_C5_amended` at the final state of the concrete run. -/
theorem claim_C5_witness :
    ((idsOf [c5TaskA, c5TaskB]).Nodup ∧ c5TaskA ∈ [c5TaskA, c5TaskB] ∧
      c5Env.registered.contains (roleOf c5TaskA) = false ∧
      stepN c5Env 1 3 (initState [c5TaskA, c5TaskB]) = .ok c5StateF) ∧
    (c5TaskA.id ∉ idsOf c5StateF.inflight ∧ c5TaskA.id ∉ c5StateF.completed ∧
      (c5TaskA.id ∉ idsOf c5StateF.queue →
        ∃ r ∈ c5StateF.results, r.taskId = c5TaskA.id ∧ r.success = false ∧
          r.error = some ("Agent not found: " ++ roleOf c5TaskA))) :=
  ⟨by decide,
   claim_C5_amended c5Env [c5TaskA, c5TaskB] 1 (by decide) c5TaskA (by decide)
     (by decide) 3 c5StateF (by decide)⟩

/-- **C10.** The executor distinguishes resolved failures from thrown ones.
If a task's executor rejects: (i) the task is never in the completed set of any
reachable state; (ii) once it has finished (left queue and in-flight) with a
registered role, a synthetic failed result is recorded for it; (iii) every
dependent of it stays in the pending queue in every reachable state; and (iv)
if such a dependent exists, the run (under any progressive schedule) ends in
the deadlock error. By contrast (v), a task whose executor resolves with
`success = false` is in the completed set as soon as it has finished. -/
theorem claim_C10 (env : ExecEnv) (tasks : List Task) (mc : Int)
    (hN : (idsOf tasks).Nodup) (t : Task) (ht : t ∈ tasks) (msg : String)
    (hthrow : env.outcome t.id = .thrown msg) :
    (∀ (n : Nat) (s : ExecState), stepN env mc n (initState tasks) = .ok s →
      t.id ∉ s.completed) ∧
    (∀ (n : Nat) (s : ExecState), stepN env mc n (initState tasks) = .ok s →
      env.registered.contains (roleOf t) = true →
      t.id ∉ idsOf s.queue → t.id ∉ idsOf s.inflight →
      ∃ r ∈ s.results, r.taskId = t.id ∧ r.success = false ∧ r.error = some msg) ∧
    (∀ B ∈ tasks, t.id ∈ B.dependencies →
      ∀ (n : Nat) (s : ExecState), stepN env mc n (initState tasks) = .ok s →
      B.id ∈ idsOf s.queue) ∧
    (Progressive env.sched → (∃ B ∈ tasks, t.id ∈ B.dependencies) →
      executeParallel env tasks mc = .error .deadlock) ∧
    (∀ u ∈ tasks, env.registered.contains (roleOf u) = true →
      env.outcome u.id = .resolved false →
      ∀ (n : Nat) (s : ExecState), stepN env mc n (initState tasks) = .ok s →
      u.id ∉ idsOf s.queue → u.id ∉ idsOf s.inflight → u.id ∈ s.completed) := by
  have hnc : ∀ (n : Nat) (s : ExecState), stepN env mc n (initState tasks) = .ok s →
      t.id ∉ s.completed := by
    intro n s h hc
    have inv := stepN_pres tasks env mc hN n _ s (einv_init tasks env) h
    exact inv.hnthrow t.id hc msg hthrow
  have hstay : ∀ B ∈ tasks, t.id ∈ B.dependencies →
      ∀ (n : Nat) (s : ExecState), stepN env mc n (initState tasks) = .ok s →
      B.id ∈ idsOf s.queue := by
    intro B hB hdep n s h
    have inv := stepN_pres tasks env mc hN n _ s (einv_init tasks env) h
    by_contra hq
    exact hnc n s h (inv.hdep B hB hq t.id hdep)
  refine ⟨hnc, ?_, hstay, ?_, ?_⟩
  · intro n s h hreg hq hi
    have inv := stepN_pres tasks env mc hN n _ s (einv_init tasks env) h
    have hfin := inv.hfin t ht hq hi
    unfold Finished at hfin
    rw [if_pos hreg, hthrow] at hfin
    exact hfin.2
  · rintro hP ⟨B, hB, hdep⟩
    unfold executeParallel
    cases hr : runLoop env mc (2 * tasks.length + 1) (initState tasks) with
    | ok res =>
      rcases runLoop_ok_reaches env mc _ _ _ hr with ⟨k, s, hs, hqe, _⟩
      have hmem := hstay B hB hdep k s hs
      rw [hqe] at hmem
      cases hmem
    | error e =>
      cases e with
      | deadlock => rfl
      | fuelOut =>
        have hmu : muExec (initState tasks) < 2 * tasks.length + 1 := by
          unfold muExec initState
          simp
        exact absurd hr (runLoop_no_fuelOut tasks env mc hN hP _ _
          (einv_init tasks env) hmu)
  · intro u hu hreg ho n s h hq hi
    have inv := stepN_pres tasks env mc hN n _ s (einv_init tasks env) h
    have hfin := inv.hfin u hu hq hi
    unfold Finished at hfin
    rw [if_pos hreg, ho] at hfin
    exact hfin.1

/-- The rejecting task of the C10 witness. -/
def c10TaskT : Task := { id := "T" }

/-- Its dependent. -/
def c10TaskU : Task := { id := "U", dependencies := ["T"] }

/-- Environment: `T`'s executor rejects with message `boom`, everything else
resolves; everything in flight finishes each round. -/
def c10Env : ExecEnv :=
  { registered := ["codegen"],
    outcome := fun id => if id == "T" then .thrown "boom" else .resolved true,
    sched := fun l => l }

/-- State after the first round: `T` rejected (synthetic result, not
completed), `U` still pending. -/
def c10State1 : ExecState :=
  { queue := [c10TaskU], inflight := [], completed := [],
    results := [{ success := false, taskId := "T", agentName := "unknown",
                  error := some "boom" }] }

/-- Witness for `claim_C10` on the rejecting task and its dependent; the
concrete run ends in the deadlock error. -/
theorem claim_C10_witness :
    ((idsOf [c10TaskT, c10TaskU]).Nodup ∧ c10TaskT ∈ [c10TaskT, c10TaskU] ∧
      c10Env.outcome c10TaskT.id = .thrown "boom" ∧
      stepN c10Env 4 1 (initState [c10TaskT, c10TaskU]) = .ok c10State1 ∧
      Progressive c10Env.sched ∧ (∃ B ∈ [c10TaskT, c10TaskU], c10TaskT.id ∈ B.dependencies)) ∧
    (c10TaskT.id ∉ c10State1.completed) ∧
    executeParallel c10Env [c10TaskT, c10TaskU] 4 = .error .deadlock := by
  have hP : Progressive c10Env.sched := by
    intro ids hids
    cases ids with
    | nil => exact absurd rfl hids
    | cons i is => exact ⟨i, List.mem_cons_self i is, List.mem_cons_self i is⟩
  have hthm := claim_C10 c10Env [c10TaskT, c10TaskU] 4 (by decide) c10TaskT
    (by decide) "boom" (by decide)
  refine ⟨⟨by decide, by decide, by decide, by decide, hP, ⟨c10TaskU, by decide, by decide⟩⟩, ?_, ?_⟩
  · exact hthm.1 1 c10State1 (by decide)
  · exact hthm.2.2.2.1 hP ⟨c10TaskU, by decide, by decide⟩

/-! ## C2: the critical path under dependency-ordered input -/

/-- The node list is dependency-ordered: scanning left to right, every node's
dependency ids have already been seen. (This is the order `buildDAG` produces
whenever the task list itself is topologically ordered, and what the claim's
"order consistent with dependencies" requires of the forward pass.) -/
def topoOk (seen : List String) : List (String × DAGNode) → Bool
  | [] => true
  | p :: ps => p.2.dependencies.all (fun d => seen.contains d) &&
      topoOk (seen ++ [p.1]) ps

/-- A dependency chain written endpoint-first: each element is a dependency of
the one before it, and all elements are nodes of the DAG. -/
def isChainRev (dag : DAG) : List String → Bool
  | [] => true
  | [x] => (lookupNode dag.nodes x).isSome
  | y :: x :: rest =>
    (match lookupNode dag.nodes y with
     | some nd => nd.dependencies.contains x
     | none => false) && isChainRev dag (x :: rest)

/-- Total duration of a chain. -/
def chainWeight (dag : DAG) (c : List String) : ℚ :=
  (c.map (durOf dag)).sum

lemma foldl_max_ge_init (f : String → ℚ) (ds : List String) :
    ∀ m : ℚ, m ≤ ds.foldl (fun m d => max m (f d)) m := by
  induction ds with
  | nil => intro m; simp
  | cons d ds ih =>
    intro m
    simp only [List.foldl_cons]
    exact le_trans (le_max_left m (f d)) (ih (max m (f d)))

lemma foldl_max_ge_mem (f : String → ℚ) (ds : List String) :
    ∀ (m : ℚ) (d : String), d ∈ ds → f d ≤ ds.foldl (fun m d => max m (f d)) m := by
  induction ds with
  | nil => intro m d hd; cases hd
  | cons e ds ih =>
    intro m d hd
    simp only [List.foldl_cons]
    rcases List.mem_cons.mp hd with rfl | hd
    · exact le_trans (le_max_right m (f d)) (foldl_max_ge_init f ds _)
    · exact ih _ d hd

lemma foldl_max_le (f : String → ℚ) (ds : List String) :
    ∀ (m c : ℚ), m ≤ c → (∀ d ∈ ds, f d ≤ c) →
      ds.foldl (fun m d => max m (f d)) m ≤ c := by
  induction ds with
  | nil => intro m c hm _; simpa using hm
  | cons d ds ih =>
    intro m c hm hall
    simp only [List.foldl_cons]
    exact ih _ c (max_le hm (hall d (List.mem_cons_self d ds)))
      (fun e he => hall e (List.mem_cons_of_mem d he))

lemma foldl_max_congr (f g : String → ℚ) (ds : List String)
    (h : ∀ d ∈ ds, f d = g d) :
    ∀ m : ℚ, ds.foldl (fun m d => max m (f d)) m =
      ds.foldl (fun m d => max m (g d)) m := by
  induction ds with
  | nil => intro m; rfl
  | cons d ds ih =>
    intro m
    simp only [List.foldl_cons]
    rw [h d (List.mem_cons_self d ds)]
    exact ih (fun e he => h e (List.mem_cons_of_mem d he)) _

lemma lookupQ_append_of_mem {acc : List (String × ℚ)} {k : String}
    (h : k ∈ acc.map (·.1)) (rest : List (String × ℚ)) :
    lookupQ (acc ++ rest) k = lookupQ acc k := by
  induction acc with
  | nil => simp at h
  | cons a as ih =>
    by_cases hk : a.1 = k
    · simp [lookupQ, List.find?, hk]
    · have h1 : (a.1 == k) = false := by simpa using hk
      have h2 : k ∈ as.map (·.1) := by
        rcases List.mem_cons.mp h with h2 | h2
        · exact absurd h2.symm hk
        · exact h2
      simp only [List.cons_append, lookupQ, List.find?, h1]
      exact ih h2

lemma lookupQ_append_new {acc : List (String × ℚ)} {k : String}
    (h : k ∉ acc.map (·.1)) (v : ℚ) :
    lookupQ (acc ++ [(k, v)]) k = v := by
  induction acc with
  | nil => simp [lookupQ, List.find?]
  | cons a as ih =>
    have hk : a.1 ≠ k := fun hh => h (by simp [hh])
    have h1 : (a.1 == k) = false := by simpa using hk
    simp only [List.cons_append, lookupQ, List.find?, h1]
    exact ih (fun hh => h (List.mem_cons_of_mem _ hh))

lemma lookupQ_nonneg {m : List (String × ℚ)} (h : ∀ kv ∈ m, 0 ≤ kv.2)
    (k : String) : 0 ≤ lookupQ m k := by
  unfold lookupQ
  cases hf : m.find? (fun p => p.1 == k) with
  | none => simp
  | some kv =>
    have hm : kv ∈ m := List.mem_of_find?_eq_some hf
    simpa using h kv hm

/-- The forward pass, analysed as a fold with an accumulator: keys accumulate
in order, already-stored values never change, and when the node list is
dependency-ordered every stored value satisfies the PERT recurrence with
respect to the final table. -/
lemma esTable_go (dag : DAG) :
    ∀ (l : List (String × DAGNode)) (acc : List (String × ℚ)) (seen : List String),
      acc.map (·.1) = seen →
      topoOk seen l = true →
      (seen ++ l.map (·.1)).Nodup →
      (l.foldl
        (fun acc p =>
          let maxPredEnd := p.2.dependencies.foldl
            (fun m depId => max m (lookupQ acc depId + lookupQ (durTable dag) depId)) 0
          acc ++ [(p.1, maxPredEnd)])
        acc).map (·.1) = seen ++ l.map (·.1) ∧
      (∀ k ∈ seen, lookupQ
        (l.foldl
          (fun acc p =>
            let maxPredEnd := p.2.dependencies.foldl
              (fun m depId => max m (lookupQ acc depId + lookupQ (durTable dag) depId)) 0
            acc ++ [(p.1, maxPredEnd)])
          acc) k = lookupQ acc k) ∧
      (∀ p ∈ l, lookupQ
        (l.foldl
          (fun acc p =>
            let maxPredEnd := p.2.dependencies.foldl
              (fun m depId => max m (lookupQ acc depId + lookupQ (durTable dag) depId)) 0
            acc ++ [(p.1, maxPredEnd)])
          acc) p.1 =
        p.2.dependencies.foldl
          (fun m d => max m (lookupQ
            (l.foldl
              (fun acc p =>
                let maxPredEnd := p.2.dependencies.foldl
                  (fun m depId => max m (lookupQ acc depId + lookupQ (durTable dag) depId)) 0
                acc ++ [(p.1, maxPredEnd)])
              acc) d + lookupQ (durTable dag) d)) 0) := by
  intro l
  induction l with
  | nil =>
    intro acc seen hkeys _ _
    refine ⟨by simpa using hkeys, fun k _ => rfl, ?_⟩
    intro p hp
    cases hp
  | cons p ps ih =>
    intro acc seen hkeys htopo hnd
    have htopo' := htopo
    rw [topoOk, Bool.and_eq_true] at htopo'
    obtain ⟨htopo1, htopo2⟩ := htopo'
    have hdepseen : ∀ d ∈ p.2.dependencies, d ∈ seen := by
      intro d hd
      have := (List.all_eq_true.mp htopo1) d hd
      simpa using this
    have hp1seen : p.1 ∉ seen := by
      intro hmem
      have := hnd
      rw [show seen ++ (p :: ps).map (·.1) = seen ++ p.1 :: ps.map (·.1) by simp] at this
      rcases List.nodup_append.mp this with ⟨_, hnd2, hdisj⟩
      exact hdisj hmem (List.mem_cons_self _ _)
    set v := p.2.dependencies.foldl
      (fun m depId => max m (lookupQ acc depId + lookupQ (durTable dag) depId)) 0 with hv
    have hkeys' : (acc ++ [(p.1, v)]).map (·.1) = seen ++ [p.1] := by
      simp [hkeys]
    have hnd' : ((seen ++ [p.1]) ++ ps.map (·.1)).Nodup := by
      have : seen ++ (p :: ps).map (·.1) = (seen ++ [p.1]) ++ ps.map (·.1) := by
        simp
      rw [this] at hnd
      exact hnd
    obtain ⟨ihk, ihstable, ihrec⟩ := ih (acc ++ [(p.1, v)]) (seen ++ [p.1])
      hkeys' htopo2 hnd'
    simp only [List.foldl_cons]
    constructor
    · rw [ihk]
      simp
    constructor
    · intro k hk
      have hk' : k ∈ seen ++ [p.1] := List.mem_append.mpr (Or.inl hk)
      rw [ihstable k hk']
      have hkacc : k ∈ acc.map (·.1) := by rw [hkeys]; exact hk
      exact lookupQ_append_of_mem hkacc [(p.1, v)]
    · intro q hq
      rcases List.mem_cons.mp hq with rfl | hq
      · have hstab : lookupQ (ps.foldl
            (fun acc p =>
              let maxPredEnd := p.2.dependencies.foldl
                (fun m depId => max m (lookupQ acc depId + lookupQ (durTable dag) depId)) 0
              acc ++ [(p.1, maxPredEnd)])
            (acc ++ [(q.1, v)])) q.1 = v := by
          rw [ihstable q.1 (List.mem_append.mpr (Or.inr (List.mem_singleton.mpr rfl)))]
          exact lookupQ_append_new (by rw [hkeys]; exact hp1seen) v
        rw [hstab, hv]
        apply foldl_max_congr
        intro d hd
        have hdseen : d ∈ seen := hdepseen d hd
        rw [ihstable d (List.mem_append.mpr (Or.inl hdseen))]
        rw [lookupQ_append_of_mem (by rw [hkeys]; exact hdseen) [(q.1, v)]]
      · exact ihrec q hq

/-- The PERT recurrence of the forward pass, for dependency-ordered inputs,
plus the key list of the resulting table. -/
lemma esOf_recurrence (dag : DAG) (hN : (dag.nodes.map (·.1)).Nodup)
    (htopo : topoOk [] dag.nodes = true) :
    (∀ p ∈ dag.nodes, esOf dag p.1 =
      p.2.dependencies.foldl (fun m d => max m (esOf dag d + durOf dag d)) 0) := by
  have h := esTable_go dag dag.nodes [] [] rfl htopo (by simpa using hN)
  intro p hp
  have h3 := h.2.2 p hp
  unfold esOf durOf esTable
  exact h3

/-- Every value stored by the forward pass is nonnegative. -/
lemma esTable_values_nonneg (dag : DAG) : ∀ kv ∈ esTable dag, 0 ≤ kv.2 := by
  unfold esTable
  have main : ∀ (l : List (String × DAGNode)) (acc : List (String × ℚ)),
      (∀ kv ∈ acc, 0 ≤ kv.2) →
      ∀ kv ∈ l.foldl
        (fun acc p =>
          let maxPredEnd := p.2.dependencies.foldl
            (fun m depId => max m (lookupQ acc depId + lookupQ (durTable dag) depId)) 0
          acc ++ [(p.1, maxPredEnd)])
        acc, 0 ≤ kv.2 := by
    intro l
    induction l with
    | nil => intro acc h; exact h
    | cons p ps ih =>
      intro acc h
      simp only [List.foldl_cons]
      apply ih
      intro kv hkv
      rcases List.mem_append.mp hkv with hkv | hkv
      · exact h kv hkv
      · cases List.mem_singleton.mp hkv
        exact foldl_max_ge_init _ _ 0
  exact main dag.nodes [] (by intro kv h; cases h)

lemma esOf_nonneg (dag : DAG) (k : String) : 0 ≤ esOf dag k :=
  lookupQ_nonneg (esTable_values_nonneg dag) k

lemma durOf_nonneg (dag : DAG) (hdur : ∀ p ∈ dag.nodes, 0 ≤ p.2.task.estimatedHours)
    (k : String) : 0 ≤ durOf dag k := by
  apply lookupQ_nonneg
  intro kv hkv
  unfold durTable at hkv
  rcases List.mem_map.mp hkv with ⟨p, hp, rfl⟩
  exact hdur p hp

/-- The first-maximum fold shared by the endpoint search and the backtracking
predecessor choice. -/
def pickMaxStep {α : Type} (f : α → ℚ) (key : α → String)
    (acc : Option String × ℚ) (x : α) : Option String × ℚ :=
  if acc.2 < f x then (some (key x), f x) else acc

lemma pickMax_mono {α : Type} (f : α → ℚ) (key : α → String) :
    ∀ (l : List α) (acc : Option String × ℚ),
      acc.2 ≤ (l.foldl (pickMaxStep f key) acc).2 := by
  intro l
  induction l with
  | nil => intro acc; exact le_refl _
  | cons x xs ih =>
    intro acc
    simp only [List.foldl_cons]
    refine le_trans ?_ (ih (pickMaxStep f key acc x))
    unfold pickMaxStep
    split
    · exact le_of_lt (by assumption)
    · exact le_refl _

lemma pickMax_ge_mem {α : Type} (f : α → ℚ) (key : α → String) :
    ∀ (l : List α) (acc : Option String × ℚ) (x : α), x ∈ l →
      f x ≤ (l.foldl (pickMaxStep f key) acc).2 := by
  intro l
  induction l with
  | nil => intro acc x hx; cases hx
  | cons y ys ih =>
    intro acc x hx
    simp only [List.foldl_cons]
    rcases List.mem_cons.mp hx with rfl | hx
    · refine le_trans ?_ (pickMax_mono f key ys (pickMaxStep f key acc x))
      unfold pickMaxStep
      split
      · exact le_refl _
      · exact le_of_not_lt (by assumption)
    · exact ih _ x hx

lemma pickMax_ne_none {α : Type} (f : α → ℚ) (key : α → String) :
    ∀ (l : List α) (acc : Option String × ℚ), acc.1 ≠ none →
      (l.foldl (pickMaxStep f key) acc).1 ≠ none := by
  intro l
  induction l with
  | nil => intro acc h; exact h
  | cons x xs ih =>
    intro acc h
    simp only [List.foldl_cons]
    apply ih
    unfold pickMaxStep
    split
    · simp
    · exact h

lemma pickMax_some {α : Type} (f : α → ℚ) (key : α → String) :
    ∀ (l : List α) (acc : Option String × ℚ) (e : String),
      (l.foldl (pickMaxStep f key) acc).1 = some e →
      (∃ x ∈ l, key x = e ∧ (l.foldl (pickMaxStep f key) acc).2 = f x) ∨
        (acc.1 = some e ∧ (l.foldl (pickMaxStep f key) acc).2 = acc.2) := by
  intro l
  induction l with
  | nil =>
    intro acc e h
    exact Or.inr ⟨h, rfl⟩
  | cons x xs ih =>
    intro acc e h
    simp only [List.foldl_cons] at h ⊢
    by_cases hc : acc.2 < f x
    · have hstep : pickMaxStep f key acc x = (some (key x), f x) := by
        unfold pickMaxStep
        rw [if_pos hc]
      rw [hstep] at h ⊢
      rcases ih (some (key x), f x) e h with ⟨y, hy, hkey, hval⟩ | ⟨heq, hval⟩
      · exact Or.inl ⟨y, List.mem_cons_of_mem x hy, hkey, hval⟩
      · refine Or.inl ⟨x, List.mem_cons_self x xs, ?_, hval⟩
        cases heq
        rfl
    · have hstep : pickMaxStep f key acc x = acc := by
        unfold pickMaxStep
        rw [if_neg hc]
      rw [hstep] at h ⊢
      rcases ih acc e h with ⟨y, hy, hkey, hval⟩ | hr
      · exact Or.inl ⟨y, List.mem_cons_of_mem x hy, hkey, hval⟩
      · exact Or.inr hr

lemma pickMax_none {α : Type} (f : α → ℚ) (key : α → String) :
    ∀ (l : List α) (acc : Option String × ℚ),
      (l.foldl (pickMaxStep f key) acc).1 = none →
      (l.foldl (pickMaxStep f key) acc).2 = acc.2 ∧ acc.1 = none := by
  intro l
  induction l with
  | nil => intro acc h; exact ⟨rfl, h⟩
  | cons x xs ih =>
    intro acc h
    simp only [List.foldl_cons] at h ⊢
    by_cases hc : acc.2 < f x
    · have hstep : pickMaxStep f key acc x = (some (key x), f x) := by
        unfold pickMaxStep
        rw [if_pos hc]
      rw [hstep] at h
      exact absurd h (pickMax_ne_none f key xs _ (by simp))
    · have hstep : pickMaxStep f key acc x = acc := by
        unfold pickMaxStep
        rw [if_neg hc]
      rw [hstep] at h ⊢
      exact ih acc h

/-- `findEndpoint` is the first-maximum fold over the nodes. -/
lemma findEndpoint_eq (dag : DAG) :
    findEndpoint dag = dag.nodes.foldl
      (pickMaxStep (fun p => esOf dag p.1 + durOf dag p.1) (·.1)) (none, 0) := rfl

/-- `criticalPred` is the first-maximum fold over the dependencies. -/
lemma criticalPred_eq (dag : DAG) (node : DAGNode) :
    criticalPred dag node = (node.dependencies.foldl
      (pickMaxStep (fun d => esOf dag d + durOf dag d) (fun d => d)) (none, -1)).1 := rfl

/-- In a dependency-ordered duplicate-free node list, every dependency id is a
key occurring strictly earlier than its dependent. -/
lemma topo_rank_aux :
    ∀ (l : List (String × DAGNode)) (seen : List String),
      topoOk seen l = true → (seen ++ l.map (·.1)).Nodup →
      ∀ p ∈ l, ∀ d ∈ p.2.dependencies,
        d ∈ seen ++ l.map (·.1) ∧
        List.indexOf d (seen ++ l.map (·.1)) <
          List.indexOf p.1 (seen ++ l.map (·.1)) := by
  intro l
  induction l with
  | nil =>
    intro seen _ _ p hp
    cases hp
  | cons p ps ih =>
    intro seen htopo hnd q hq d hd
    have htopo' := htopo
    rw [topoOk, Bool.and_eq_true] at htopo'
    obtain ⟨ht1, ht2⟩ := htopo'
    have hlisteq : seen ++ (p :: ps).map (·.1) = (seen ++ [p.1]) ++ ps.map (·.1) := by
      simp
    rcases List.mem_cons.mp hq with rfl | hq
    · have hdseen : d ∈ seen := by
        have := List.all_eq_true.mp ht1 d hd
        simpa using this
      have hp1notseen : q.1 ∉ seen := by
        rw [hlisteq] at hnd
        have h1 : (seen ++ [q.1]).Nodup := (List.nodup_append.mp hnd).1
        rcases List.nodup_append.mp h1 with ⟨_, _, hdisj⟩
        intro hmem
        exact hdisj hmem (List.mem_singleton.mpr rfl)
      refine ⟨List.mem_append.mpr (Or.inl hdseen), ?_⟩
      have hidxd : List.indexOf d (seen ++ (q :: ps).map (·.1)) =
          List.indexOf d seen := List.indexOf_append_of_mem hdseen
      have hidxq : List.indexOf q.1 (seen ++ (q :: ps).map (·.1)) = seen.length := by
        have h1 : (q :: ps).map (·.1) = q.1 :: ps.map (·.1) := by simp
        rw [h1, List.indexOf_append_of_not_mem hp1notseen, List.indexOf_cons_self]
        rw [Nat.add_zero]
      rw [hidxd, hidxq]
      exact List.indexOf_lt_length.mpr hdseen
    · have hnd' : ((seen ++ [p.1]) ++ ps.map (·.1)).Nodup := by
        rw [← hlisteq]
        exact hnd
      have h := ih (seen ++ [p.1]) ht2 hnd' q hq d hd
      rw [hlisteq]
      exact h

/-- A successful node lookup exhibits the binding as a member of the map. -/
lemma lookupNode_mem_pair {m : List (String × DAGNode)} {k : String} {nd : DAGNode}
    (h : lookupNode m k = some nd) : (k, nd) ∈ m := by
  unfold lookupNode at h
  cases hf : m.find? (fun p => p.1 == k) with
  | none =>
    rw [hf] at h
    cases h
  | some pair =>
    rw [hf] at h
    have hmem := List.mem_of_find?_eq_some hf
    have hpred := List.find?_some hf
    have h1 : pair.1 = k := by simpa using hpred
    have h2 : pair.2 = nd := by simpa using h
    have hpp : pair = (k, nd) := by
      cases pair
      simp only at h1 h2
      rw [h1, h2]
    rw [← hpp]
    exact hmem

/-- Characterization of a backtracking run from a node of a dependency-ordered
DAG with nonnegative durations: it succeeds, prepends (in root-first order) a
chain ending at the start node whose total duration is exactly the start
node's earliest finish, and whose root has no dependencies. -/
lemma backtrack_spec (dag : DAG) (hN : (dag.nodes.map (·.1)).Nodup)
    (htopo : topoOk [] dag.nodes = true)
    (hdur : ∀ p ∈ dag.nodes, 0 ≤ p.2.task.estimatedHours) :
    ∀ (fuel : Nat) (cur : String) (acc : List String),
      cur ∈ dag.nodes.map (·.1) →
      List.indexOf cur (dag.nodes.map (·.1)) < fuel →
      ∃ rch res, backtrack dag fuel cur acc = .ok res ∧
        res = rch.reverse ++ acc ∧ rch ≠ [] ∧ rch.head? = some cur ∧
        isChainRev dag rch = true ∧
        chainWeight dag rch = esOf dag cur + durOf dag cur ∧
        (∀ root, rch.getLast? = some root →
          ∃ nd, lookupNode dag.nodes root = some nd ∧ nd.dependencies = []) := by
  have hrank : ∀ p ∈ dag.nodes, ∀ d ∈ p.2.dependencies,
      d ∈ dag.nodes.map (·.1) ∧
      List.indexOf d (dag.nodes.map (·.1)) < List.indexOf p.1 (dag.nodes.map (·.1)) := by
    intro p hp d hd
    have h := topo_rank_aux dag.nodes [] htopo (by simpa using hN) p hp d hd
    simpa using h
  intro fuel
  induction fuel with
  | zero =>
    intro cur acc _ hidx
    exact absurd hidx (Nat.not_lt_zero _)
  | succ fuel ih =>
    intro cur acc hcur hidx
    rcases mem_keys_lookupNode (show cur ∈ keysOf dag.nodes from hcur) with ⟨nd, hnd⟩
    have hpair : (cur, nd) ∈ dag.nodes := lookupNode_mem_pair hnd
    have hrec := esOf_recurrence dag hN htopo (cur, nd) hpair
    rw [backtrack]
    rw [hnd]
    dsimp only
    cases hcp : criticalPred dag nd with
    | none =>
      have hdeps : nd.dependencies = [] := by
        cases hdeq : nd.dependencies with
        | nil => rfl
        | cons d ds =>
          exfalso
          rw [criticalPred_eq, hdeq] at hcp
          simp only [List.foldl_cons] at hcp
          have hfire : pickMaxStep (fun d => esOf dag d + durOf dag d)
              (fun d => d) (none, -1) d = (some d, esOf dag d + durOf dag d) := by
            unfold pickMaxStep
            rw [if_pos]
            exact lt_of_lt_of_le (by norm_num)
              (add_nonneg (esOf_nonneg dag d) (durOf_nonneg dag hdur d))
          rw [hfire] at hcp
          exact pickMax_ne_none _ _ ds (some d, esOf dag d + durOf dag d) (by simp) hcp
      refine ⟨[cur], cur :: acc, rfl, by simp, by simp, rfl, ?_, ?_, ?_⟩
      · simp [isChainRev, hnd]
      · have hes0 : esOf dag cur = 0 := by
          rw [hrec, hdeps]
          rfl
        simp [chainWeight, hes0]
      · intro root hroot
        have hrc : cur = root := by simpa using hroot
        subst hrc
        exact ⟨nd, hnd, hdeps⟩
    | some p =>
      have hcp' := hcp
      rw [criticalPred_eq] at hcp'
      rcases pickMax_some _ _ nd.dependencies (none, -1) p hcp' with
        ⟨d, hdmem, hdkey, hdval⟩ | ⟨hcon, _⟩
      swap
      · cases hcon
      have hdp : d = p := hdkey
      subst hdp
      have hfp_nonneg : 0 ≤ esOf dag d + durOf dag d :=
        add_nonneg (esOf_nonneg dag d) (durOf_nonneg dag hdur d)
      have hescur : esOf dag cur = esOf dag d + durOf dag d := by
        rw [hrec]
        refine le_antisymm ?_ ?_
        · apply foldl_max_le
          · exact hfp_nonneg
          · intro e he
            have h1 := pickMax_ge_mem (fun d => esOf dag d + durOf dag d)
              (fun d => d) nd.dependencies (none, -1) e he
            rw [hdval] at h1
            exact h1
        · exact foldl_max_ge_mem _ nd.dependencies 0 d hdmem
      obtain ⟨hdkeys, hdidx⟩ := hrank (cur, nd) hpair d hdmem
      have hdidx2 : List.indexOf d (dag.nodes.map (·.1)) <
          List.indexOf cur (dag.nodes.map (·.1)) := hdidx
      have hidx' : List.indexOf d (dag.nodes.map (·.1)) < fuel := by
        have h1 : List.indexOf cur (dag.nodes.map (·.1)) ≤ fuel :=
          Nat.lt_succ_iff.mp hidx
        omega
      obtain ⟨rch', res', hbt', hres', hne', hhead', hchain', hweight', hroot'⟩ :=
        ih d (cur :: acc) hdkeys hidx'
      refine ⟨cur :: rch', res', hbt', ?_, by simp, rfl, ?_, ?_, ?_⟩
      · rw [hres']
        simp
      · cases hrch' : rch' with
        | nil => exact absurd hrch' hne'
        | cons x rest =>
          have hx : x = d := by
            rw [hrch'] at hhead'
            simpa using hhead'
          subst hx
          rw [isChainRev, hnd]
          rw [hrch'] at hchain'
          simp only [Bool.and_eq_true]
          refine ⟨by simpa using hdmem, hchain'⟩
      · rw [show chainWeight dag (cur :: rch') =
            durOf dag cur + chainWeight dag rch' by simp [chainWeight]]
        rw [hweight', hescur]
        ring
      · intro root hroot
        cases hrch' : rch' with
        | nil => exact absurd hrch' hne'
        | cons x rest =>
          apply hroot'
          rw [hrch']
          rw [hrch'] at hroot
          rw [List.getLast?_cons_cons] at hroot
          exact hroot

/-- The head of a non-empty chain is a node of the DAG. -/
lemma isChainRev_head_lookup (dag : DAG) (x : String) (rest : List String)
    (h : isChainRev dag (x :: rest) = true) :
    ∃ nd, lookupNode dag.nodes x = some nd := by
  cases rest with
  | nil =>
    simp only [isChainRev] at h
    exact Option.isSome_iff_exists.mp h
  | cons z r =>
    simp only [isChainRev, Bool.and_eq_true] at h
    obtain ⟨h1, _⟩ := h
    cases hl : lookupNode dag.nodes x with
    | none =>
      rw [hl] at h1
      cases h1
    | some nd => exact ⟨nd, rfl⟩

/-- Under the PERT recurrence, the weight of any dependency chain written
endpoint-first is bounded by the head's earliest finish. -/
lemma chainRev_bound (dag : DAG) (hN : (dag.nodes.map (·.1)).Nodup)
    (htopo : topoOk [] dag.nodes = true) :
    ∀ (c : List String) (x : String),
      c.head? = some x → isChainRev dag c = true →
      chainWeight dag c ≤ esOf dag x + durOf dag x := by
  have hrec := esOf_recurrence dag hN htopo
  intro c
  induction c with
  | nil =>
    intro x hx _
    cases hx
  | cons y c ih =>
    intro x hx hch
    have hyx : y = x := by simpa using hx
    subst hyx
    cases c with
    | nil =>
      have hw : chainWeight dag [y] = durOf dag y := by simp [chainWeight]
      rw [hw]
      have := esOf_nonneg dag y
      linarith
    | cons z rest2 =>
      simp only [isChainRev, Bool.and_eq_true] at hch
      obtain ⟨h1, h2⟩ := hch
      cases hl : lookupNode dag.nodes y with
      | none =>
        rw [hl] at h1
        cases h1
      | some nd =>
        rw [hl] at h1
        have hz : z ∈ nd.dependencies := by simpa using h1
        have hmem : (y, nd) ∈ dag.nodes := lookupNode_mem_pair hl
        have hy : esOf dag y =
            nd.dependencies.foldl (fun m d => max m (esOf dag d + durOf dag d)) 0 :=
          hrec (y, nd) hmem
        have hge : esOf dag z + durOf dag z ≤ esOf dag y := by
          rw [hy]
          exact foldl_max_ge_mem (fun d => esOf dag d + durOf dag d) nd.dependencies 0 z hz
        have hih := ih z rfl h2
        have hw : chainWeight dag (y :: z :: rest2) =
            durOf dag y + chainWeight dag (z :: rest2) := by simp [chainWeight]
        rw [hw]
        linarith

set_option maxHeartbeats 1000000 in
/-- The maximum earliest finish found by the endpoint search dominates the
weight of every dependency chain. -/
lemma chain_le_maxFinish (dag : DAG) (hN : (dag.nodes.map (·.1)).Nodup)
    (htopo : topoOk [] dag.nodes = true) :
    ∀ c, isChainRev dag c = true → chainWeight dag c ≤ (findEndpoint dag).2 := by
  have h0 : (0 : ℚ) ≤ (findEndpoint dag).2 := by
    rw [findEndpoint_eq]
    exact pickMax_mono _ _ dag.nodes (none, 0)
  intro c hch
  cases c with
  | nil =>
    have : chainWeight dag [] = 0 := by simp [chainWeight]
    rw [this]
    exact h0
  | cons x rest =>
    have hb := chainRev_bound dag hN htopo (x :: rest) x rfl hch
    obtain ⟨nd, hl⟩ := isChainRev_head_lookup dag x rest hch
    have hmem : (x, nd) ∈ dag.nodes := lookupNode_mem_pair hl
    have hge : esOf dag x + durOf dag x ≤ (findEndpoint dag).2 := by
      have h := pickMax_ge_mem (fun p : String × DAGNode => esOf dag p.1 + durOf dag p.1)
        (fun p => p.1) dag.nodes (none, 0) (x, nd) hmem
      rw [findEndpoint_eq]
      exact h
    linarith

set_option maxHeartbeats 1000000 in
/-- When the endpoint search returns a node, the reported maximum finish is
that node's earliest finish, and the node is in the map. -/
lemma findEndpoint_some_finish (dag : DAG) (e : String)
    (h : (findEndpoint dag).1 = some e) :
    (findEndpoint dag).2 = esOf dag e + durOf dag e ∧ e ∈ dag.nodes.map (·.1) := by
  rw [findEndpoint_eq] at h
  rcases pickMax_some (fun p : String × DAGNode => esOf dag p.1 + durOf dag p.1)
      (fun p => p.1) dag.nodes (none, 0) e h with ⟨p, hp, hk, hv⟩ | ⟨hacc, _⟩
  · constructor
    · rw [findEndpoint_eq, hv, hk]
    · exact List.mem_map.mpr ⟨p, hp, hk⟩
  · cases hacc

set_option maxHeartbeats 1000000 in
/-- C2 (amended): when the node map's insertion order is consistent with the
dependencies (`topoOk`), keys are unique and durations are nonnegative, the
forward pass satisfies the PERT recurrence, the endpoint search maximises
earliest finish over all nodes and over all dependency chains, and whenever an
endpoint is picked the returned path is a maximum-weight dependency chain in
root-to-endpoint order ending at that endpoint and starting at a
dependency-free root. For a node map in non-topological order none of this is
guaranteed (see the counterexample). -/
theorem claim_C2_amended (dag : DAG)
    (hN : (dag.nodes.map (·.1)).Nodup)
    (htopo : topoOk [] dag.nodes = true)
    (hdur : ∀ p ∈ dag.nodes, 0 ≤ p.2.task.estimatedHours) :
    (∀ p ∈ dag.nodes, esOf dag p.1 =
      p.2.dependencies.foldl (fun m d => max m (esOf dag d + durOf dag d)) 0) ∧
    (∀ p ∈ dag.nodes, esOf dag p.1 + durOf dag p.1 ≤ (findEndpoint dag).2) ∧
    (∀ c, isChainRev dag c = true → chainWeight dag c ≤ (findEndpoint dag).2) ∧
    (∀ e, (findEndpoint dag).1 = some e →
      ∃ path, identifyCriticalPath dag = .ok path ∧ path ≠ [] ∧
        path.reverse.head? = some e ∧ isChainRev dag path.reverse = true ∧
        chainWeight dag path.reverse = (findEndpoint dag).2 ∧
        (∀ root, path.head? = some root →
          ∃ nd, lookupNode dag.nodes root = some nd ∧ nd.dependencies = [])) := by
  refine ⟨esOf_recurrence dag hN htopo, ?_, chain_le_maxFinish dag hN htopo, ?_⟩
  · intro p hp
    have h := pickMax_ge_mem (fun q : String × DAGNode => esOf dag q.1 + durOf dag q.1)
      (fun q => q.1) dag.nodes (none, 0) p hp
    rw [findEndpoint_eq]
    exact h
  · intro e he
    obtain ⟨hfin, hmem⟩ := findEndpoint_some_finish dag e he
    have hidx : List.indexOf e (dag.nodes.map (·.1)) < dag.nodes.length + 1 := by
      have := List.indexOf_lt_length.mpr hmem
      simp only [List.length_map] at this
      omega
    obtain ⟨rch, res, hbt, hres, hne, hhead, hchain, hweight, hroot⟩ :=
      backtrack_spec dag hN htopo hdur (dag.nodes.length + 1) e [] hmem hidx
    have hres' : res = rch.reverse := by simpa using hres
    have hicp : identifyCriticalPath dag = .ok res := by
      have hpair : findEndpoint dag = (some e, (findEndpoint dag).2) := by
        rw [← he]
      rw [identifyCriticalPath, hpair]
      exact hbt
    refine ⟨res, hicp, ?_, ?_, ?_, ?_, ?_⟩
    · rw [hres']
      simpa using hne
    · rw [hres', List.reverse_reverse]
      exact hhead
    · rw [hres', List.reverse_reverse]
      exact hchain
    · rw [hres', List.reverse_reverse, hweight, hfin]
    · intro root hr
      apply hroot
      rw [hres'] at hr
      rw [← List.head?_reverse]
      exact hr

/-- The counterexample tasks: an acyclic batch listed in reverse dependency
order (`C` before `B` before `A`, with `C → B → A`). -/
def c2xTaskC : Task := { id := "C", dependencies := ["B"], estimatedHours := 1 }

/-- Second counterexample task. -/
def c2xTaskB : Task := { id := "B", dependencies := ["A"], estimatedHours := 5 }

/-- Third counterexample task (the root). -/
def c2xTaskA : Task := { id := "A", estimatedHours := 5 }

/-- The DAG `buildDAG` produces for the reverse-ordered batch: the node map
keeps the insertion order `C, B, A`, which is not dependency-consistent. -/
def c2CexDag : DAG :=
  ⟨[("C", ⟨c2xTaskC, ["B"], [], 2⟩),
    ("B", ⟨c2xTaskB, ["A"], ["C"], 1⟩),
    ("A", ⟨c2xTaskA, [], ["B"], 0⟩)],
   [[⟨c2xTaskA, [], ["B"], 0⟩], [⟨c2xTaskB, ["A"], ["C"], 1⟩],
    [⟨c2xTaskC, ["B"], [], 2⟩]], []⟩

/-- C2 counterexample: a perfectly acyclic task set whose tasks are listed in
reverse dependency order. `buildDAG` accepts it, but the forward pass reads
`earliestStart("B")` before it is final: the PERT recurrence fails at `C`
(`esOf "C" = 5`, not `esOf "B" + durOf "B" = 10`), and the returned path
`["A", "B"]` (weight 10) is not the longest chain — `[A, B, C]` has weight 11. -/
theorem claim_C2_counterexample :
    buildDAG [c2xTaskC, c2xTaskB, c2xTaskA] = .ok c2CexDag ∧
    ("C", (⟨c2xTaskC, ["B"], [], 2⟩ : DAGNode)) ∈ c2CexDag.nodes ∧
    esOf c2CexDag "C" ≠
      (["B"].foldl (fun m d => max m (esOf c2CexDag d + durOf c2CexDag d)) 0) ∧
    identifyCriticalPath c2CexDag = .ok ["A", "B"] ∧
    isChainRev c2CexDag ["C", "B", "A"] = true ∧
    chainWeight c2CexDag ["B", "A"] < chainWeight c2CexDag ["C", "B", "A"] := by
  have hes : esTable c2CexDag = [("C", 5), ("B", 5), ("A", 0)] := by
    simp [esTable, durTable, lookupQ, c2CexDag, c2xTaskA, c2xTaskB, c2xTaskC]
  have hdur : durTable c2CexDag = [("C", 1), ("B", 5), ("A", 5)] := by
    simp [durTable, c2CexDag, c2xTaskA, c2xTaskB, c2xTaskC]
  have hesC : esOf c2CexDag "C" = 5 := by simp [esOf, lookupQ, hes]
  have hesB : esOf c2CexDag "B" = 5 := by simp [esOf, lookupQ, hes]
  have hesA : esOf c2CexDag "A" = 0 := by simp [esOf, lookupQ, hes]
  have hdC : durOf c2CexDag "C" = 1 := by simp [durOf, lookupQ, hdur]
  have hdB : durOf c2CexDag "B" = 5 := by simp [durOf, lookupQ, hdur]
  have hdA : durOf c2CexDag "A" = 5 := by simp [durOf, lookupQ, hdur]
  have hnodes : c2CexDag.nodes =
      [("C", ⟨c2xTaskC, ["B"], [], 2⟩), ("B", ⟨c2xTaskB, ["A"], ["C"], 1⟩),
       ("A", ⟨c2xTaskA, [], ["B"], 0⟩)] := rfl
  refine ⟨?_, by decide, ?_, ?_, by decide, ?_⟩
  · simp [buildDAG, visitAll, visit, visitDeps, mkNodes, addEdges, setNode,
      lookupNode, pushLevel, c2xTaskA, c2xTaskB, c2xTaskC, c2CexDag]
  · simp only [List.foldl_cons, List.foldl_nil]
    rw [hesC, hesB, hdB]
    norm_num
  · have hfe : findEndpoint c2CexDag = (some "B", 10) := by
      rw [findEndpoint, hnodes]
      simp only [List.foldl_cons, List.foldl_nil]
      rw [hesA, hesB, hesC, hdA, hdB, hdC]
      norm_num
    have hpredB : criticalPred c2CexDag ⟨c2xTaskB, ["A"], ["C"], 1⟩ = some "A" := by
      rw [criticalPred]
      dsimp only
      simp only [List.foldl_cons, List.foldl_nil]
      rw [hesA, hdA]
      norm_num
    have hpredA : criticalPred c2CexDag ⟨c2xTaskA, [], ["B"], 0⟩ = none := by
      rw [criticalPred]
      simp
    rw [identifyCriticalPath, hfe]
    show backtrack c2CexDag 4 "B" [] = .ok ["A", "B"]
    rw [backtrack]
    have hlB : lookupNode c2CexDag.nodes "B" = some ⟨c2xTaskB, ["A"], ["C"], 1⟩ := by
      simp [lookupNode, hnodes]
    rw [hlB]
    dsimp only
    rw [hpredB]
    dsimp only
    rw [backtrack]
    have hlA : lookupNode c2CexDag.nodes "A" = some ⟨c2xTaskA, [], ["B"], 0⟩ := by
      simp [lookupNode, hnodes]
    rw [hlA]
    dsimp only
    rw [hpredA]
  · have h1 : chainWeight c2CexDag ["B", "A"] = 10 := by
      simp [chainWeight, hdB, hdA]
      norm_num
    have h2 : chainWeight c2CexDag ["C", "B", "A"] = 11 := by
      simp [chainWeight, hdC, hdB, hdA]
      norm_num
    rw [h1, h2]
    norm_num

/-- The spec's diamond example: `A → {B, C} → D` with durations 1, 5, 2, 1,
listed in dependency-consistent order. -/
def c2TaskA : Task := { id := "A", estimatedHours := 1 }

/-- Diamond task `B`. -/
def c2TaskB : Task := { id := "B", dependencies := ["A"], estimatedHours := 5 }

/-- Diamond task `C`. -/
def c2TaskC : Task := { id := "C", dependencies := ["A"], estimatedHours := 2 }

/-- Diamond task `D`. -/
def c2TaskD : Task := { id := "D", dependencies := ["B", "C"], estimatedHours := 1 }

/-- The DAG `buildDAG` produces for the diamond batch. -/
def c2DiamondDag : DAG :=
  ⟨[("A", ⟨c2TaskA, [], ["B", "C"], 0⟩), ("B", ⟨c2TaskB, ["A"], ["D"], 1⟩),
    ("C", ⟨c2TaskC, ["A"], ["D"], 1⟩), ("D", ⟨c2TaskD, ["B", "C"], [], 2⟩)],
   [[⟨c2TaskA, [], ["B", "C"], 0⟩], [⟨c2TaskB, ["A"], ["D"], 1⟩, ⟨c2TaskC, ["A"], ["D"], 1⟩],
    [⟨c2TaskD, ["B", "C"], [], 2⟩]], []⟩

/-- Witness for `claim_C2_amended` at the spec's diamond: the hypotheses hold
(unique keys, topological node order, nonnegative durations), the amended
theorem applies, and concretely the critical path is `["A", "B", "D"]` with
maximum finish `7`. -/
theorem claim_C2_witness :
    buildDAG [c2TaskA, c2TaskB, c2TaskC, c2TaskD] = .ok c2DiamondDag ∧
    identifyCriticalPath c2DiamondDag = .ok ["A", "B", "D"] ∧
    (findEndpoint c2DiamondDag).2 = 7 ∧
    (∀ c, isChainRev c2DiamondDag c = true →
      chainWeight c2DiamondDag c ≤ (findEndpoint c2DiamondDag).2) := by
  have hes : esTable c2DiamondDag = [("A", 0), ("B", 1), ("C", 1), ("D", 6)] := by
    simp [esTable, durTable, lookupQ, c2DiamondDag, c2TaskA, c2TaskB, c2TaskC, c2TaskD]
    norm_num
  have hdur : durTable c2DiamondDag = [("A", 1), ("B", 5), ("C", 2), ("D", 1)] := by
    simp [durTable, c2DiamondDag, c2TaskA, c2TaskB, c2TaskC, c2TaskD]
  have hesA : esOf c2DiamondDag "A" = 0 := by simp [esOf, lookupQ, hes]
  have hesB : esOf c2DiamondDag "B" = 1 := by simp [esOf, lookupQ, hes]
  have hesC : esOf c2DiamondDag "C" = 1 := by simp [esOf, lookupQ, hes]
  have hesD : esOf c2DiamondDag "D" = 6 := by simp [esOf, lookupQ, hes]
  have hdA : durOf c2DiamondDag "A" = 1 := by simp [durOf, lookupQ, hdur]
  have hdB : durOf c2DiamondDag "B" = 5 := by simp [durOf, lookupQ, hdur]
  have hdC : durOf c2DiamondDag "C" = 2 := by simp [durOf, lookupQ, hdur]
  have hdD : durOf c2DiamondDag "D" = 1 := by simp [durOf, lookupQ, hdur]
  have hnodes : c2DiamondDag.nodes =
      [("A", ⟨c2TaskA, [], ["B", "C"], 0⟩), ("B", ⟨c2TaskB, ["A"], ["D"], 1⟩),
       ("C", ⟨c2TaskC, ["A"], ["D"], 1⟩), ("D", ⟨c2TaskD, ["B", "C"], [], 2⟩)] := rfl
  have hfe : findEndpoint c2DiamondDag = (some "D", 7) := by
    rw [findEndpoint, hnodes]
    simp only [List.foldl_cons, List.foldl_nil]
    rw [hesA, hesB, hesC, hesD, hdA, hdB, hdC, hdD]
    norm_num
  refine ⟨?_, ?_, by rw [hfe],
    (claim_C2_amended c2DiamondDag (by decide) (by decide) (by decide)).2.2.1⟩
  · simp [buildDAG, visitAll, visit, visitDeps, mkNodes, addEdges, setNode,
      lookupNode, pushLevel, c2TaskA, c2TaskB, c2TaskC, c2TaskD, c2DiamondDag]
  · have hpredD : criticalPred c2DiamondDag ⟨c2TaskD, ["B", "C"], [], 2⟩ = some "B" := by
      rw [criticalPred]
      dsimp only
      simp only [List.foldl_cons, List.foldl_nil]
      rw [hesB, hesC, hdB, hdC]
      norm_num
    have hpredB : criticalPred c2DiamondDag ⟨c2TaskB, ["A"], ["D"], 1⟩ = some "A" := by
      rw [criticalPred]
      dsimp only
      simp only [List.foldl_cons, List.foldl_nil]
      rw [hesA, hdA]
      norm_num
    have hpredA : criticalPred c2DiamondDag ⟨c2TaskA, [], ["B", "C"], 0⟩ = none := by
      rw [criticalPred]
      simp
    rw [identifyCriticalPath, hfe]
    show backtrack c2DiamondDag 5 "D" [] = .ok ["A", "B", "D"]
    rw [backtrack]
    have hlD : lookupNode c2DiamondDag.nodes "D" = some ⟨c2TaskD, ["B", "C"], [], 2⟩ := by
      simp [lookupNode, hnodes]
    rw [hlD]
    dsimp only
    rw [hpredD]
    dsimp only
    rw [backtrack]
    have hlB : lookupNode c2DiamondDag.nodes "B" = some ⟨c2TaskB, ["A"], ["D"], 1⟩ := by
      simp [lookupNode, hnodes]
    rw [hlB]
    dsimp only
    rw [hpredB]
    dsimp only
    rw [backtrack]
    have hlA : lookupNode c2DiamondDag.nodes "A" = some ⟨c2TaskA, [], ["B", "C"], 0⟩ := by
      simp [lookupNode, hnodes]
    rw [hlA]
    dsimp only
    rw [hpredA]

/-! ## C8: levels of an acyclic batch -/

/-- The `level` stored for id `d` in a node map (only ever read when `d` is a
key of the map). -/
def levelIn (m : List (String × DAGNode)) (d : String) : Int :=
  match lookupNode m d with
  | some nd => nd.level
  | none => 0

lemma foldl_maxI_ge_init (f : String → Int) (ds : List String) :
    ∀ m : Int, m ≤ ds.foldl (fun a d => max a (f d)) m := by
  induction ds with
  | nil => intro m; simp
  | cons d ds ih =>
    intro m
    simp only [List.foldl_cons]
    exact le_trans (le_max_left m (f d)) (ih (max m (f d)))

lemma foldl_maxI_congr (f g : String → Int) (ds : List String)
    (h : ∀ d ∈ ds, f d = g d) :
    ∀ m : Int, ds.foldl (fun a d => max a (f d)) m =
      ds.foldl (fun a d => max a (g d)) m := by
  induction ds with
  | nil => intro m; rfl
  | cons d ds ih =>
    intro m
    simp only [List.foldl_cons]
    rw [h d (List.mem_cons_self d ds)]
    exact ih (fun e he => h e (List.mem_cons_of_mem d he)) _

/-- In a duplicate-free node map, list membership determines the lookup. -/
lemma lookup_of_mem_nodup {m : List (String × DAGNode)} {k : String} {nd : DAGNode}
    (hN : (keysOf m).Nodup) (h : (k, nd) ∈ m) : lookupNode m k = some nd := by
  induction m with
  | nil => cases h
  | cons p ps ih =>
    have hN' : (p.1 ∉ keysOf ps) ∧ (keysOf ps).Nodup := by
      rw [keysOf, List.map_cons] at hN
      exact List.nodup_cons.mp hN
    rcases List.mem_cons.mp h with rfl | h1
    · unfold lookupNode
      rw [List.find?_cons_of_pos _ (by simp)]
      rfl
    · have hkmem : k ∈ keysOf ps := by
        have : (fun q : String × DAGNode => q.1) (k, nd) ∈ ps.map (·.1) :=
          List.mem_map_of_mem _ h1
        simpa [keysOf] using this
      have hk : p.1 ≠ k := fun he => hN'.1 (he ▸ hkmem)
      unfold lookupNode
      rw [List.find?_cons_of_neg _ (by simpa using hk)]
      exact ih hN'.2 h1

/-- Membership in a map after `setNode`. -/
lemma setNode_mem {m : List (String × DAGNode)} {k : String} {v : DAGNode}
    {p : String × DAGNode} (h : p ∈ setNode m k v) : p = (k, v) ∨ p ∈ m := by
  induction m with
  | nil => simpa [setNode] using h
  | cons q qs ih =>
    rw [setNode] at h
    by_cases hq : q.1 = k
    · rw [if_pos (by simp [hq])] at h
      rcases List.mem_cons.mp h with rfl | h1
      · exact Or.inl rfl
      · exact Or.inr (List.mem_cons_of_mem q h1)
    · rw [if_neg (by simp [hq])] at h
      rcases List.mem_cons.mp h with rfl | h1
      · exact Or.inr (List.mem_cons_self _ _)
      · rcases ih h1 with h2 | h2
        · exact Or.inl h2
        · exact Or.inr (List.mem_cons_of_mem q h2)

lemma pushLevel_eq (ls : List (List DAGNode)) (i : Nat) (n : DAGNode) :
    pushLevel ls i n =
      (ls ++ List.replicate (i + 1 - ls.length) []).set i
        ((ls ++ List.replicate (i + 1 - ls.length) []).getD i [] ++ [n]) := rfl

lemma padded_len (ls : List (List DAGNode)) (i : Nat) :
    i < (ls ++ List.replicate (i + 1 - ls.length) ([] : List DAGNode)).length := by
  rw [List.length_append, List.length_replicate]
  omega

lemma padded_getD (ls : List (List DAGNode)) (i : Nat) :
    (ls ++ List.replicate (i + 1 - ls.length) ([] : List DAGNode)).getD i [] =
      ls.getD i [] := by
  by_cases h : i < ls.length
  · rw [List.getD, List.getD, List.get?_append h]
  · rw [List.getD, List.getD, List.get?_len_le (le_of_not_lt h)]
    rw [List.get?_append_right (le_of_not_lt h)]
    cases h2 : (List.replicate (i + 1 - ls.length) ([] : List DAGNode)).get?
        (i - ls.length) with
    | none => rfl
    | some b =>
      have hb : b = [] := List.eq_of_mem_replicate (List.get?_mem h2)
      simp [hb]

/-- The bucket `pushLevel` pushed into. -/
lemma pushLevel_get_self (ls : List (List DAGNode)) (i : Nat) (n : DAGNode) :
    (pushLevel ls i n).get? i = some (ls.getD i [] ++ [n]) := by
  rw [pushLevel_eq, List.get?_set_eq_of_lt _ (padded_len ls i), padded_getD]

/-- Buckets at other indices are either old buckets or fresh empty padding. -/
lemma pushLevel_get_ne (ls : List (List DAGNode)) (i : Nat) (n : DAGNode)
    (j : Nat) (hj : j ≠ i) (b : List DAGNode)
    (h : (pushLevel ls i n).get? j = some b) : ls.get? j = some b ∨ b = [] := by
  rw [pushLevel_eq, List.get?_set_ne _ _ (Ne.symm hj)] at h
  by_cases hlt : j < ls.length
  · rw [List.get?_append hlt] at h
    exact Or.inl h
  · right
    rw [List.get?_append_right (le_of_not_lt hlt)] at h
    exact List.eq_of_mem_replicate (List.get?_mem h)

/-- `pushLevel` never removes a node from a bucket. -/
lemma pushLevel_mem_getD (ls : List (List DAGNode)) (i : Nat) (n : DAGNode)
    (j : Nat) (nd : DAGNode) (h : nd ∈ ls.getD j []) :
    nd ∈ (pushLevel ls i n).getD j [] := by
  by_cases hj : j = i
  · subst hj
    rw [List.getD, pushLevel_get_self]
    exact List.mem_append.mpr (Or.inl (by simpa [List.getD] using h))
  · rw [List.getD, pushLevel_eq, List.get?_set_ne _ _ (Ne.symm hj)]
    by_cases hlt : j < ls.length
    · rw [List.get?_append hlt]
      simpa [List.getD] using h
    · rw [List.getD, List.get?_len_le (le_of_not_lt hlt)] at h
      simp at h

/-- The pushed node lands in its bucket. -/
lemma pushLevel_self_mem (ls : List (List DAGNode)) (i : Nat) (n : DAGNode) :
    n ∈ (pushLevel ls i n).getD i [] := by
  rw [List.getD, pushLevel_get_self]
  simp

/-- The invariant maintained by `buildDAG`'s level computation, for an
acyclicity witness `rank` (dependencies have strictly smaller rank): keys are
unique, every dependency id is a key with smaller rank, visited and in-progress
ids are disjoint, every visited id's node satisfies the level recurrence with
its dependencies already visited and sits in its level bucket, and every bucket
holds only nodes of its own level. -/
structure BInv (rank : String → Nat) (st : BuildSt) : Prop where
  hnd : (keysOf st.nodes).Nodup
  hdeps : ∀ p ∈ st.nodes, ∀ d ∈ p.2.dependencies, d ∈ keysOf st.nodes
  hrank : ∀ p ∈ st.nodes, ∀ d ∈ p.2.dependencies, rank d < rank p.1
  hdisj : ∀ v ∈ st.visited, v ∉ st.inProg
  hlev : ∀ v ∈ st.visited, ∃ nd, lookupNode st.nodes v = some nd ∧
    (∀ d ∈ nd.dependencies, d ∈ st.visited) ∧
    0 ≤ nd.level ∧
    nd.level = (nd.dependencies.foldl (fun a d => max a (levelIn st.nodes d)) (-1)) + 1 ∧
    nd ∈ st.levels.getD nd.level.toNat []
  hbuck : ∀ i bucket, st.levels.get? i = some bucket →
    ∀ nd ∈ bucket, nd.level = (i : Int)

/-- Successful, fully-characterised run of `visit` / `visitDeps` on an acyclic
map: from an invariant state, `visit` succeeds whenever the target id is a key
whose rank is below the fuel and below every rank on the DFS stack; it
preserves the invariant, the keys and dependency lists and the bindings of
already-visited ids, leaves the stack unchanged, marks the id visited and
returns its stored level. `visitDeps` folds that over a dependency list and
returns the running `Math.max` of the (final) stored levels. -/
lemma visit_levels (rank : String → Nat) : ∀ fuel : Nat,
    (∀ st id, BInv rank st → id ∈ keysOf st.nodes →
      (∀ a ∈ st.inProg, rank id < rank a) → rank id < fuel →
      ∃ l st', visit fuel st id = .ok (l, st') ∧ BInv rank st' ∧
        PreservesDeps st.nodes st'.nodes ∧
        (∀ v ∈ st.visited, lookupNode st'.nodes v = lookupNode st.nodes v) ∧
        st.visited ⊆ st'.visited ∧ st'.inProg = st.inProg ∧
        id ∈ st'.visited ∧
        (∃ nd, lookupNode st'.nodes id = some nd ∧ nd.level = l)) ∧
    (∀ ds st m, BInv rank st → (∀ d ∈ ds, d ∈ keysOf st.nodes) →
      (∀ d ∈ ds, ∀ a ∈ st.inProg, rank d < rank a) → (∀ d ∈ ds, rank d < fuel) →
      ∃ r st', visitDeps fuel st ds m = .ok (r, st') ∧ BInv rank st' ∧
        PreservesDeps st.nodes st'.nodes ∧
        (∀ v ∈ st.visited, lookupNode st'.nodes v = lookupNode st.nodes v) ∧
        st.visited ⊆ st'.visited ∧ st'.inProg = st.inProg ∧
        (∀ d ∈ ds, d ∈ st'.visited) ∧
        r = ds.foldl (fun a d => max a (levelIn st'.nodes d)) m) := by
  intro fuel
  induction fuel with
  | zero =>
    constructor
    · intro st id _ _ _ hf
      exact absurd hf (Nat.not_lt_zero _)
    · intro ds
      cases ds with
      | nil =>
        intro st m hinv _ _ _
        exact ⟨m, st, by rw [visitDeps], hinv, preservesDeps_refl _,
          fun v _ => rfl, fun a ha => ha, rfl, by simp, rfl⟩
      | cons d ds =>
        intro st m _ _ _ hf
        exact absurd (hf d (List.mem_cons_self d ds)) (Nat.not_lt_zero _)
  | succ fuel ih =>
    obtain ⟨ihV, ihD⟩ := ih
    have hV : ∀ st id, BInv rank st → id ∈ keysOf st.nodes →
        (∀ a ∈ st.inProg, rank id < rank a) → rank id < fuel + 1 →
        ∃ l st', visit (fuel + 1) st id = .ok (l, st') ∧ BInv rank st' ∧
          PreservesDeps st.nodes st'.nodes ∧
          (∀ v ∈ st.visited, lookupNode st'.nodes v = lookupNode st.nodes v) ∧
          st.visited ⊆ st'.visited ∧ st'.inProg = st.inProg ∧
          id ∈ st'.visited ∧
          (∃ nd, lookupNode st'.nodes id = some nd ∧ nd.level = l) := by
      intro st id hinv hk hip hfuel
      by_cases hvis : id ∈ st.visited
      · obtain ⟨nd, hnd, _, _, _, _⟩ := hinv.hlev id hvis
        refine ⟨nd.level, st, ?_, hinv, preservesDeps_refl _, fun v _ => rfl,
          fun a ha => ha, rfl, hvis, nd, hnd, rfl⟩
        rw [visit, if_pos (by simpa using hvis), hnd]
      · have hipn : id ∉ st.inProg := fun h => lt_irrefl _ (hip id h)
        obtain ⟨node, hnode⟩ := mem_keys_lookupNode hk
        have hpair : (id, node) ∈ st.nodes := lookupNode_mem_pair hnode
        have hrkd : ∀ d ∈ node.dependencies, rank d < rank id :=
          fun d hd => hinv.hrank (id, node) hpair d hd
        have hinv1 : BInv rank { st with inProg := id :: st.inProg } := by
          refine ⟨hinv.hnd, hinv.hdeps, hinv.hrank, ?_, hinv.hlev, hinv.hbuck⟩
          intro v hv hmem
          rcases List.mem_cons.mp hmem with rfl | hmem2
          · exact hvis hv
          · exact hinv.hdisj v hv hmem2
        obtain ⟨mdl, st2, hvd, hinv2, hpd2, hfroz2, hsub2, hipr2, hdv2, hmdl⟩ :=
          ihD node.dependencies { st with inProg := id :: st.inProg } (-1) hinv1
            (fun d hd => hinv.hdeps (id, node) hpair d hd)
            (fun d hd a ha => by
              rcases List.mem_cons.mp ha with rfl | ha2
              · exact hrkd d hd
              · exact lt_trans (hrkd d hd) (hip a ha2))
            (fun d hd => by
              have h1 := hrkd d hd
              omega)
        dsimp only at hpd2 hfroz2 hsub2 hipr2
        have hid2ip : id ∈ st2.inProg := by
          rw [hipr2]
          exact List.mem_cons_self _ _
        have hid2nv : id ∉ st2.visited := fun hv => hinv2.hdisj id hv hid2ip
        have hl2m : (lookupNode st2.nodes id).map (·.dependencies) =
            some node.dependencies := by
          rw [hpd2.2 id, hnode]
          rfl
        cases hl2 : lookupNode st2.nodes id with
        | none =>
          rw [hl2] at hl2m
          cases hl2m
        | some nd2 =>
        rw [hl2] at hl2m
        have hdep2 : nd2.dependencies = node.dependencies := by simpa using hl2m
        have hkeys2 : keysOf st2.nodes = keysOf st.nodes := hpd2.1
        have hidk2 : id ∈ keysOf st2.nodes := by
          rw [hkeys2]
          exact hk
        have hkeys3 : keysOf (setNode st2.nodes id { node with level := mdl + 1 }) =
            keysOf st2.nodes := keysOf_setNode_mem _ _ _ hidk2
        have hpd3 : PreservesDeps st2.nodes
            (setNode st2.nodes id { node with level := mdl + 1 }) :=
          preservesDeps_setNode hl2 hdep2.symm
        have hmge : (-1 : Int) ≤ mdl := by
          rw [hmdl]
          exact foldl_maxI_ge_init _ _ _
        have hge0 : (0 : Int) ≤ mdl + 1 := by omega
        have htn : (((mdl + 1).toNat : Nat) : Int) = mdl + 1 := Int.toNat_of_nonneg hge0
        have hlevIn3 : ∀ d, d ≠ id →
            levelIn (setNode st2.nodes id { node with level := mdl + 1 }) d =
              levelIn st2.nodes d := by
          intro d hdne
          unfold levelIn
          rw [lookupNode_setNode_ne _ _ _ _ hdne]
        have hep : st2.inProg.eraseP (· == id) = st.inProg := by
          rw [hipr2]
          exact List.eraseP_cons_of_pos (by simp)
        refine ⟨mdl + 1,
          ⟨setNode st2.nodes id { node with level := mdl + 1 },
           st2.visited ++ [id],
           st2.inProg.eraseP (· == id),
           pushLevel st2.levels (mdl + 1).toNat { node with level := mdl + 1 }⟩,
          ?_, ?_, ?_, ?_, ?_, ?_, ?_, ?_⟩
        · rw [visit, if_neg (by simpa using hvis), if_neg (by simpa using hipn)]
          dsimp only
          rw [hnode]
          dsimp only
          rw [hvd]
        · refine ⟨?_, ?_, ?_, ?_, ?_, ?_⟩
          · show (keysOf (setNode st2.nodes id { node with level := mdl + 1 })).Nodup
            rw [hkeys3]
            exact hinv2.hnd
          · intro p hp d hd
            show d ∈ keysOf (setNode st2.nodes id { node with level := mdl + 1 })
            rw [hkeys3]
            rcases setNode_mem hp with rfl | hp2
            · apply hinv2.hdeps (id, nd2) (lookupNode_mem_pair hl2)
              rw [hdep2]
              exact hd
            · exact hinv2.hdeps p hp2 d hd
          · intro p hp d hd
            rcases setNode_mem hp with rfl | hp2
            · show rank d < rank id
              exact hrkd d hd
            · exact hinv2.hrank p hp2 d hd
          · show ∀ v ∈ st2.visited ++ [id], v ∉ st2.inProg.eraseP (· == id)
            intro v hv hvm
            rw [hep] at hvm
            rcases List.mem_append.mp hv with h1 | h1
            · refine hinv2.hdisj v h1 ?_
              rw [hipr2]
              exact List.mem_cons_of_mem _ hvm
            · have hvid : id = v := (by simpa using h1 : v = id).symm
              subst hvid
              exact hipn hvm
          · show ∀ v ∈ st2.visited ++ [id],
              ∃ nd, lookupNode (setNode st2.nodes id { node with level := mdl + 1 }) v =
                  some nd ∧
                (∀ d ∈ nd.dependencies, d ∈ st2.visited ++ [id]) ∧
                0 ≤ nd.level ∧
                nd.level = (nd.dependencies.foldl
                  (fun a d => max a (levelIn
                    (setNode st2.nodes id { node with level := mdl + 1 }) d)) (-1)) + 1 ∧
                nd ∈ (pushLevel st2.levels (mdl + 1).toNat
                  { node with level := mdl + 1 }).getD nd.level.toNat []
            intro v hv
            rcases List.mem_append.mp hv with h1 | h1
            · obtain ⟨nd, hndv, hdv, hge, hrec, hbm⟩ := hinv2.hlev v h1
              have hvne : v ≠ id := fun he => hid2nv (he ▸ h1)
              refine ⟨nd, ?_, ?_, hge, ?_, ?_⟩
              · rw [lookupNode_setNode_ne _ _ _ _ hvne]
                exact hndv
              · intro d hd
                exact List.mem_append.mpr (Or.inl (hdv d hd))
              · rw [hrec]
                congr 1
                exact (foldl_maxI_congr _ _ _ (fun d hd =>
                  (hlevIn3 d (fun he => hid2nv (he ▸ hdv d hd))).symm) (-1))
              · exact pushLevel_mem_getD _ _ _ _ _ hbm
            · have hvid : id = v := (by simpa using h1 : v = id).symm
              subst hvid
              refine ⟨{ node with level := mdl + 1 },
                lookupNode_setNode_self _ _ _, ?_, hge0, ?_, ?_⟩
              · intro d hd
                exact List.mem_append.mpr (Or.inl (hdv2 d hd))
              · show mdl + 1 = (node.dependencies.foldl
                  (fun a d => max a (levelIn
                    (setNode st2.nodes id { node with level := mdl + 1 }) d)) (-1)) + 1
                have hcong : node.dependencies.foldl
                    (fun a d => max a (levelIn
                      (setNode st2.nodes id { node with level := mdl + 1 }) d)) (-1) =
                    node.dependencies.foldl
                      (fun a d => max a (levelIn st2.nodes d)) (-1) :=
                  foldl_maxI_congr _ _ _ (fun d hd =>
                    hlevIn3 d (fun he => lt_irrefl _ (he ▸ hrkd d hd))) (-1)
                rw [hcong, ← hmdl]
              · exact pushLevel_self_mem _ _ _
          · show ∀ i bucket,
              (pushLevel st2.levels (mdl + 1).toNat
                { node with level := mdl + 1 }).get? i = some bucket →
              ∀ nd ∈ bucket, nd.level = (i : Int)
            intro i bucket hib nd hndb
            by_cases hieq : i = (mdl + 1).toNat
            · subst hieq
              rw [pushLevel_get_self] at hib
              injection hib with hib
              subst hib
              rcases List.mem_append.mp hndb with h1 | h1
              · cases hB : st2.levels.get? (mdl + 1).toNat with
                | none =>
                  rw [List.getD, hB] at h1
                  simp at h1
                | some b =>
                  refine hinv2.hbuck _ b hB nd ?_
                  rw [List.getD, hB] at h1
                  simpa using h1
              · have hnde : nd = { node with level := mdl + 1 } := by simpa using h1
                subst hnde
                exact htn.symm
            · rcases pushLevel_get_ne _ _ _ i hieq bucket hib with h1 | h1
              · exact hinv2.hbuck i bucket h1 nd hndb
              · subst h1
                cases hndb
        · show PreservesDeps st.nodes (setNode st2.nodes id { node with level := mdl + 1 })
          exact preservesDeps_trans hpd2 hpd3
        · show ∀ v ∈ st.visited,
            lookupNode (setNode st2.nodes id { node with level := mdl + 1 }) v =
              lookupNode st.nodes v
          intro v hv
          have hvne : v ≠ id := fun he => hvis (he ▸ hv)
          rw [lookupNode_setNode_ne _ _ _ _ hvne]
          exact hfroz2 v hv
        · show st.visited ⊆ st2.visited ++ [id]
          intro a ha
          exact List.mem_append.mpr (Or.inl (hsub2 ha))
        · exact hep
        · show id ∈ st2.visited ++ [id]
          exact List.mem_append.mpr (Or.inr (List.mem_singleton.mpr rfl))
        · exact ⟨{ node with level := mdl + 1 }, lookupNode_setNode_self _ _ _, rfl⟩
    refine ⟨hV, ?_⟩
    intro ds
    induction ds with
    | nil =>
      intro st m hinv _ _ _
      exact ⟨m, st, by rw [visitDeps], hinv, preservesDeps_refl _, fun v _ => rfl,
        fun a ha => ha, rfl, by simp, rfl⟩
    | cons d ds ihds =>
      intro st m hinv hkeys hranks hfuels
      obtain ⟨l, st1, hrun1, hinv1, hpd1, hfroz1, hsub1, hipr1, hdmem1, nd1, hnd1, hlev1⟩ :=
        hV st d hinv (hkeys d (List.mem_cons_self d ds))
          (hranks d (List.mem_cons_self d ds)) (hfuels d (List.mem_cons_self d ds))
      obtain ⟨r, st2, hrun2, hinv2, hpd2, hfroz2, hsub2, hipr2, hdsmem2, hr⟩ :=
        ihds st1 (max m l) hinv1
          (fun e he => by
            rw [hpd1.1]
            exact hkeys e (List.mem_cons_of_mem d he))
          (fun e he a ha => by
            rw [hipr1] at ha
            exact hranks e (List.mem_cons_of_mem d he) a ha)
          (fun e he => hfuels e (List.mem_cons_of_mem d he))
      refine ⟨r, st2, ?_, hinv2, preservesDeps_trans hpd1 hpd2, ?_, ?_, ?_, ?_, ?_⟩
      · rw [visitDeps, hrun1]
        exact hrun2
      · intro v hv
        rw [hfroz2 v (hsub1 hv)]
        exact hfroz1 v hv
      · exact fun a ha => hsub2 (hsub1 ha)
      · rw [hipr2, hipr1]
      · intro e he
        rcases List.mem_cons.mp he with rfl | he2
        · exact hsub2 hdmem1
        · exact hdsmem2 e he2
      · have hd2 : lookupNode st2.nodes d = some nd1 := by
          rw [hfroz2 d hdmem1]
          exact hnd1
        have hlevd : levelIn st2.nodes d = l := by
          unfold levelIn
          rw [hd2]
          exact hlev1
        rw [List.foldl_cons]
        rw [hlevd]
        exact hr

/-- `visitAll` over ids of bounded rank, from an invariant state with an empty
DFS stack: it succeeds, keeps the invariant and visits every listed id. -/
lemma visitAll_levels (rank : String → Nat) (fuel : Nat) :
    ∀ (ids : List String) (st : BuildSt), BInv rank st →
    (∀ id ∈ ids, id ∈ keysOf st.nodes) → st.inProg = [] →
    (∀ id ∈ ids, rank id < fuel) →
    ∃ st', visitAll fuel st ids = .ok st' ∧ BInv rank st' ∧
      st'.inProg = [] ∧ st.visited ⊆ st'.visited ∧
      (∀ id ∈ ids, id ∈ st'.visited) ∧ PreservesDeps st.nodes st'.nodes := by
  intro ids
  induction ids with
  | nil =>
    intro st hinv _ hip _
    exact ⟨st, by rw [visitAll], hinv, hip, fun a ha => ha, by simp,
      preservesDeps_refl _⟩
  | cons id ids ih =>
    intro st hinv hkeys hip hfuels
    obtain ⟨l, st1, hrun1, hinv1, hpd1, hfroz1, hsub1, hipr1, hmem1, _⟩ :=
      (visit_levels rank fuel).1 st id hinv (hkeys id (List.mem_cons_self id ids))
        (by
          rw [hip]
          intro a ha
          cases ha)
        (hfuels id (List.mem_cons_self id ids))
    obtain ⟨st2, hrun2, hinv2, hip2, hsub2, hmem2, hpd2⟩ :=
      ih st1 hinv1
        (fun e he => by
          rw [hpd1.1]
          exact hkeys e (List.mem_cons_of_mem id he))
        (by rw [hipr1, hip])
        (fun e he => hfuels e (List.mem_cons_of_mem id he))
    refine ⟨st2, ?_, hinv2, hip2, fun a ha => hsub2 (hsub1 ha), ?_,
      preservesDeps_trans hpd1 hpd2⟩
    · rw [visitAll, hrun1]
      exact hrun2
    · intro e he
      rcases List.mem_cons.mp he with rfl | he2
      · exact hsub2 hmem1
      · exact hmem2 e he2

/-- **C8 (confirmed).** For every acyclic task batch — acyclicity witnessed by
a rank function, bounded by the batch size, under which every dependency has
strictly smaller rank than its dependent — with unique ids and every dependency
id present in the batch, `buildDAG` terminates successfully; every node's level
equals one plus the maximum of its dependencies' levels (via the
`maxDepLevel = -1` start, so `0` when it has no dependencies), and the `levels`
buckets group the nodes by exactly that computed level. -/
theorem claim_C8 (tasks : List Task) (rank : String → Nat)
    (hN : (tasks.map (·.id)).Nodup)
    (hdeps : ∀ t ∈ tasks, ∀ d ∈ t.dependencies, d ∈ tasks.map (·.id))
    (hrank : ∀ t ∈ tasks, ∀ d ∈ t.dependencies, rank d < rank t.id)
    (hbound : ∀ t ∈ tasks, rank t.id ≤ tasks.length) :
    ∃ dag, buildDAG tasks = .ok dag ∧
      (∀ p ∈ dag.nodes, p.2.level =
        (p.2.dependencies.foldl (fun a d => max a (levelIn dag.nodes d)) (-1)) + 1) ∧
      (∀ p ∈ dag.nodes, p.2.dependencies = [] → p.2.level = 0) ∧
      (∀ p ∈ dag.nodes, ∀ d ∈ p.2.dependencies, ∃ nd, lookupNode dag.nodes d = some nd) ∧
      (∀ i bucket, dag.levels.get? i = some bucket → ∀ nd ∈ bucket, nd.level = (i : Int)) ∧
      (∀ p ∈ dag.nodes, p.2 ∈ dag.levels.getD p.2.level.toNat []) := by
  have hkeys0 : keysOf (addEdges (mkNodes tasks)) = tasks.map (·.id) := by
    rw [(addEdges_preservesDeps (mkNodes tasks)).1, mkNodes_keys tasks hN]
  have hnd0 : (keysOf (addEdges (mkNodes tasks))).Nodup := by
    rw [hkeys0]
    exact hN
  have hdeps0 : ∀ p ∈ addEdges (mkNodes tasks), ∃ t ∈ tasks, t.id = p.1 ∧
      p.2.dependencies = t.dependencies := by
    intro p hp
    have hlp : lookupNode (addEdges (mkNodes tasks)) p.1 = some p.2 :=
      lookup_of_mem_nodup hnd0 (by rw [Prod.mk.eta]; exact hp)
    have hpk : p.1 ∈ tasks.map (·.id) := by
      rw [← hkeys0]
      exact lookupNode_mem_keys hlp
    obtain ⟨t, ht, htid⟩ := List.mem_map.mp hpk
    refine ⟨t, ht, htid, ?_⟩
    have h1 := (addEdges_preservesDeps (mkNodes tasks)).2 p.1
    rw [hlp, ← htid, mkNodes_lookup tasks hN t ht] at h1
    simpa using h1
  have hinv0 : BInv rank ⟨addEdges (mkNodes tasks), [], [], []⟩ := by
    refine ⟨hnd0, ?_, ?_, ?_, ?_, ?_⟩
    · intro p hp d hd
      obtain ⟨t, ht, htid, hdp⟩ := hdeps0 p hp
      rw [hdp] at hd
      show d ∈ keysOf (addEdges (mkNodes tasks))
      rw [hkeys0]
      exact hdeps t ht d hd
    · intro p hp d hd
      obtain ⟨t, ht, htid, hdp⟩ := hdeps0 p hp
      rw [hdp] at hd
      rw [← htid]
      exact hrank t ht d hd
    · intro v hv
      cases hv
    · intro v hv
      cases hv
    · intro i bucket hib
      simp at hib
  obtain ⟨st, hrun, hinvF, _, _, hvisF, hpdF⟩ :=
    visitAll_levels rank (tasks.length + 2)
      ((addEdges (mkNodes tasks)).map (fun p : String × DAGNode => p.1))
      ⟨addEdges (mkNodes tasks), [], [], []⟩ hinv0
      (fun id hid => hid)
      rfl
      (fun id hid => by
        have hmem : id ∈ tasks.map (·.id) := by
          rw [← hkeys0]
          exact hid
        obtain ⟨t, ht, htid⟩ := List.mem_map.mp hmem
        have hb := hbound t ht
        rw [htid] at hb
        omega)
  have hlevp : ∀ p ∈ st.nodes,
      0 ≤ p.2.level ∧
      p.2.level = (p.2.dependencies.foldl
        (fun a d => max a (levelIn st.nodes d)) (-1)) + 1 ∧
      p.2 ∈ st.levels.getD p.2.level.toNat [] := by
    intro p hp
    have hlp : lookupNode st.nodes p.1 = some p.2 :=
      lookup_of_mem_nodup hinvF.hnd (by rw [Prod.mk.eta]; exact hp)
    have hpv : p.1 ∈ st.visited := by
      apply hvisF
      have hmem : p.1 ∈ keysOf st.nodes := lookupNode_mem_keys hlp
      rw [hpdF.1] at hmem
      exact hmem
    obtain ⟨nd, hnd2, _, hge, hrec, hbm⟩ := hinvF.hlev p.1 hpv
    rw [hlp] at hnd2
    injection hnd2 with hnd2
    subst hnd2
    exact ⟨hge, hrec, hbm⟩
  refine ⟨⟨st.nodes, st.levels, []⟩, ?_, ?_, ?_, ?_, ?_, ?_⟩
  · unfold buildDAG
    dsimp only
    rw [hrun]
  · exact fun p hp => (hlevp p hp).2.1
  · intro p hp hE
    have h := (hlevp p hp).2.1
    rw [hE] at h
    simpa using h
  · intro p hp d hd
    exact mem_keys_lookupNode (hinvF.hdeps p hp d hd)
  · exact hinvF.hbuck
  · exact fun p hp => (hlevp p hp).2.2

/-- First witness task for C8 (no dependencies, level 0). -/
def c8TaskA : Task := { id := "A" }

/-- Second witness task for C8 (depends on `A`, level 1). -/
def c8TaskB : Task := { id := "B", dependencies := ["A"] }

/-- Third witness task for C8 (depends on `A` and `B`, level 2). -/
def c8TaskC : Task := { id := "C", dependencies := ["A", "B"] }

/-- A rank function witnessing acyclicity of the C8 batch. -/
def c8Rank : String → Nat :=
  fun s => if s = "A" then 0 else if s = "B" then 1 else 2

/-- The DAG `buildDAG` produces for the witness batch: levels `[[A], [B], [C]]`. -/
def c8Dag : DAG :=
  ⟨[("A", ⟨c8TaskA, [], ["B", "C"], 0⟩), ("B", ⟨c8TaskB, ["A"], ["C"], 1⟩),
    ("C", ⟨c8TaskC, ["A", "B"], [], 2⟩)],
   [[⟨c8TaskA, [], ["B", "C"], 0⟩], [⟨c8TaskB, ["A"], ["C"], 1⟩],
    [⟨c8TaskC, ["A", "B"], [], 2⟩]], []⟩

/-- Witness for `claim_C8` at the concrete three-task batch: the hypotheses
hold by computation, the theorem applies, and `buildDAG` concretely returns
the expected DAG with levels 0, 1, 2 bucketed as `[[A], [B], [C]]`. -/
theorem claim_C8_witness :
    (([c8TaskA, c8TaskB, c8TaskC].map (·.id)).Nodup ∧
      (∀ t ∈ [c8TaskA, c8TaskB, c8TaskC], ∀ d ∈ t.dependencies,
        d ∈ [c8TaskA, c8TaskB, c8TaskC].map (·.id)) ∧
      (∀ t ∈ [c8TaskA, c8TaskB, c8TaskC], ∀ d ∈ t.dependencies,
        c8Rank d < c8Rank t.id) ∧
      (∀ t ∈ [c8TaskA, c8TaskB, c8TaskC],
        c8Rank t.id ≤ [c8TaskA, c8TaskB, c8TaskC].length)) ∧
    buildDAG [c8TaskA, c8TaskB, c8TaskC] = .ok c8Dag ∧
    (∃ dag, buildDAG [c8TaskA, c8TaskB, c8TaskC] = .ok dag ∧
      (∀ p ∈ dag.nodes, p.2.level =
        (p.2.dependencies.foldl (fun a d => max a (levelIn dag.nodes d)) (-1)) + 1) ∧
      (∀ i bucket, dag.levels.get? i = some bucket →
        ∀ nd ∈ bucket, nd.level = (i : Int)) ∧
      (∀ p ∈ dag.nodes, p.2 ∈ dag.levels.getD p.2.level.toNat [])) := by
  refine ⟨⟨by decide, by decide, by decide, by decide⟩, ?_, ?_⟩
  · simp [buildDAG, visitAll, visit, visitDeps, mkNodes, addEdges, setNode,
      lookupNode, pushLevel, c8TaskA, c8TaskB, c8TaskC, c8Dag]
  · obtain ⟨dag, h1, h2, _, _, h5, h6⟩ :=
      claim_C8 [c8TaskA, c8TaskB, c8TaskC] c8Rank (by decide) (by decide)
        (by decide) (by decide)
    exact ⟨dag, h1, h2, h5, h6⟩

end Coordinator
